import Mathlib

/-!
Verification of the MultiTrie data structure of `src/lib/src/common/multitrie.rs`.

The Rust code keeps trie vertices behind shared pointers (`Shared<MultiTrieNode>`),
uses raw pointers as identities for the `skip_pars` map, and mutates nodes in
place.  The embedding makes the heap explicit: a `MultiTrie` is a store (list) of
nodes and every `Shared` reference becomes the node's index in the store.  `HashMap`
and `HashSet` fields become association lists and duplicate-free lists.  The two
panics of the traversal code (`pop_head_unchecked` on an empty key and the `unwrap`
of a missing `par_size`) are modelled by `Option`: `none` is a panic.  The worklist
recursions of `get` and `remove` consume one key token per level, so a fuel equal
to the key length makes them total.
-/

namespace Multitrie

/-- Token alphabet of the trie, from `NodeKey<T>`. -/
inductive NodeKey (T : Type) where
  | Exact : T → NodeKey T
  | Wildcard : NodeKey T
  | LeftPar : NodeKey T
  | RightPar : NodeKey T
deriving DecidableEq, Repr

/-- Embeds `NodeKey::is_parenthesis` (`self == RightPar || self == LeftPar`). -/
def NodeKey.is_parenthesis {T : Type} : NodeKey T → Bool
  | NodeKey.RightPar => true
  | NodeKey.LeftPar => true
  | _ => false

/-- An annotated key token, from `_NodeKey<T>`: the token itself plus, for a
`LeftPar`, the distance to its matching `RightPar`. -/
structure AnnKey (T : Type) where
  key : NodeKey T
  par_size : Option Nat
deriving DecidableEq, Repr

/-- A `TrieKey<T>`: the `VecDeque` of annotated tokens, head at the front. -/
abbrev TrieKey (T : Type) := List (AnnKey T)

/-- The diagnostic of `precalculate_par_sizes` for an unmatched `RightPar`. -/
def rightParErr (pos : Nat) : String :=
  "Unbalanced key: NodeKey::RightPar without NodeKey::LeftPar at position " ++ toString pos

/-- The diagnostic of `precalculate_par_sizes` for unmatched `LeftPar`s (their
positions, oldest first, as the Rust `Vec` debug-prints them). -/
def leftParErr (ps : List Nat) : String :=
  "Unbalanced key: NodeKey::LeftPar without NodeKey::Right at positions " ++ toString ps

/-- Sets the `par_size` annotation of the entry at index `i`
(`keys_with_sizes[start].par_size = Some(pos - start)`). -/
def setParSize {T : Type} (l : List (AnnKey T)) (i : Nat) (s : Nat) : List (AnnKey T) :=
  match l[i]? with
  | some e => l.set i { e with par_size := some s }
  | none => l

/-- The scan loop of `TrieKey::precalculate_par_sizes`: a linear walk keeping a
stack of positions of open `LeftPar`s (head of the list is the top of the stack,
matching the end of the Rust `Vec`). -/
def precalcLoop {T : Type} : List (NodeKey T) → Nat → List Nat → List (AnnKey T) →
    Except String (List (AnnKey T))
  | [], _, stack, acc =>
    if stack.isEmpty then Except.ok acc else Except.error (leftParErr stack.reverse)
  | bare :: rest, pos, stack, acc =>
    match bare with
    | NodeKey.LeftPar =>
      precalcLoop rest (pos + 1) (pos :: stack) (acc ++ [{ key := bare, par_size := none }])
    | NodeKey.RightPar =>
      match stack with
      | [] => Except.error (rightParErr pos)
      | start :: stack =>
        precalcLoop rest (pos + 1) stack
          (setParSize (acc ++ [{ key := bare, par_size := none }]) start (pos - start))
    | _ => precalcLoop rest (pos + 1) stack (acc ++ [{ key := bare, par_size := none }])

/-- Embeds `TrieKey::precalculate_par_sizes`; `from_list` is this computation
followed by a panic on `error`. -/
def precalculate_par_sizes {T : Type} (bare_keys : List (NodeKey T)) :
    Except String (TrieKey T) :=
  precalcLoop bare_keys 0 [] []

/-- Depth-counting scan used to define balance: `parRun ts d` is the nesting depth
after scanning `ts` starting from depth `d`, or `none` if some `RightPar` arrives
at depth 0. -/
def parRun {T : Type} : List (NodeKey T) → Nat → Option Nat
  | [], d => some d
  | NodeKey.LeftPar :: ts, d => parRun ts (d + 1)
  | NodeKey.RightPar :: ts, d =>
    match d with
    | 0 => none
    | e + 1 => parRun ts e
  | _ :: ts, d => parRun ts d

/-- Modelled from the spec: a token sequence is a balanced parenthesis sequence
when every `RightPar` closes an open `LeftPar` and every `LeftPar` is closed. -/
def Balanced {T : Type} (ts : List (NodeKey T)) : Prop :=
  parRun ts 0 = some 0

/-- Every `LeftPar` of the key carries a `par_size` annotation.  This holds of
every key built by `from_list` and is what keeps the `unwrap` calls of the
traversal code from panicking. -/
def KeyTotal {T : Type} (key : TrieKey T) : Prop :=
  ∀ e ∈ key, e.key = NodeKey.LeftPar → e.par_size.isSome = true

/-- A trie vertex, from `MultiTrieNode<K, V>`.  Node references (`Shared<Self>`
and the raw pointers keying `skip_pars`) become indices into the store, so
`children` is the label-to-child `HashMap` as an association list and
`skip_pars` the identity-keyed `HashMap` as a list of node ids. -/
structure MultiTrieNode (K V : Type) where
  children : List (NodeKey K × Nat)
  skip_pars : List Nat
  values : List V
deriving DecidableEq, Repr

/-- A whole trie: the store of nodes.  The root is the node at index 0. -/
structure MultiTrie (K V : Type) where
  nodes : List (MultiTrieNode K V)
deriving DecidableEq, Repr

/-- A fresh node (`MultiTrieNode::new`). -/
def emptyNode {K V : Type} : MultiTrieNode K V :=
  { children := [], skip_pars := [], values := [] }

/-- Embeds `MultiTrie::new`: one root node, no children, no values. -/
def MultiTrie.new {K V : Type} : MultiTrie K V := { nodes := [emptyNode] }

/-- The node at index `nid` (dangling indices, which the Rust code cannot produce,
read as a fresh node). -/
def getNode {K V : Type} (s : MultiTrie K V) (nid : Nat) : MultiTrieNode K V :=
  s.nodes.getD nid emptyNode

/-- Replaces the node at index `nid`. -/
def setNode {K V : Type} (s : MultiTrie K V) (nid : Nat) (n : MultiTrieNode K V) :
    MultiTrie K V :=
  { nodes := s.nodes.set nid n }

/-- First-match association-list lookup: the `HashMap::get` of `children`
(labels are unique in every state the code builds). -/
def lookupChild {K : Type} [DecidableEq K] : List (NodeKey K × Nat) → NodeKey K → Option Nat
  | [], _ => none
  | (l, c) :: rest, k => if l = k then some c else lookupChild rest k

/-- Embeds `HashMap::remove` on `children`. -/
def eraseChild {K : Type} [DecidableEq K] : List (NodeKey K × Nat) → NodeKey K →
    List (NodeKey K × Nat)
  | [], _ => []
  | (l, c) :: rest, k => if l = k then rest else (l, c) :: eraseChild rest k

/-- Embeds `HashSet::insert` on `values` (no effect when already present). -/
def insertValue {V : Type} [DecidableEq V] (l : List V) (v : V) : List V :=
  if v ∈ l then l else l ++ [v]

/-- Embeds `HashSet::remove` and the id-keyed `HashMap::remove`. -/
def eraseFirst {V : Type} [DecidableEq V] : List V → V → List V
  | [], _ => []
  | x :: rest, v => if x = v then rest else x :: eraseFirst rest v

/-- Embeds `HashMap::insert` on `skip_pars`: keyed by node identity, so inserting
an already-present id changes nothing. -/
def insertSkip (l : List Nat) (c : Nat) : List Nat :=
  if c ∈ l then l else l ++ [c]

/-- Embeds `MultiTrieNode::is_empty`: only `children` and `values` are consulted;
`skip_pars` is not. -/
def MultiTrieNode.is_empty {K V : Type} (n : MultiTrieNode K V) : Bool :=
  n.children.isEmpty && n.values.isEmpty

/-- Embeds `MultiTrieNode::children`, the successor computation driving `remove`.
The label is `some` for a labelled child edge and `none` for a skip-par edge; the
result is `none` on the two panics (`pop_head_unchecked` of an empty key, `unwrap`
of a missing `par_size`). -/
def childBranches {K V : Type} [DecidableEq K] (s : MultiTrie K V) (nid : Nat) :
    TrieKey K → Option (List (Option (NodeKey K) × Nat × TrieKey K))
  | [] => none
  | head :: key =>
    let n := getNode s nid
    match head.key with
    | NodeKey.Exact a =>
      some (((lookupChild n.children (NodeKey.Exact a)).map
               (fun c => (some (NodeKey.Exact a), c, key))).toList ++
            ((lookupChild n.children NodeKey.Wildcard).map
               (fun c => (some NodeKey.Wildcard, c, key))).toList)
    | NodeKey.RightPar =>
      some ((lookupChild n.children NodeKey.RightPar).map
              (fun c => (some NodeKey.RightPar, c, key))).toList
    | NodeKey.LeftPar =>
      match head.par_size with
      | none => none
      | some size =>
        some (((lookupChild n.children NodeKey.Wildcard).map
                 (fun c => (some NodeKey.Wildcard, c, key.drop size))).toList ++
              ((lookupChild n.children NodeKey.LeftPar).map
                 (fun c => (some NodeKey.LeftPar, c, key))).toList)
    | NodeKey.Wildcard =>
      some ((n.children.filter (fun p => ! p.1.is_parenthesis)).map
              (fun p => (some p.1, p.2, key)) ++
            n.skip_pars.map (fun c => (none, c, key)))

/-- Embeds `MultiTrieNode::get_exploring_strategy`: the frames pushed for one
nonempty key, in callback order (`none` on the same panics as `childBranches`). -/
def get_exploring_strategy {K V : Type} [DecidableEq K] (s : MultiTrie K V) (nid : Nat) :
    TrieKey K → Option (List (Nat × TrieKey K))
  | [] => none
  | head :: key =>
    let n := getNode s nid
    match head.key with
    | NodeKey.Exact a =>
      some (((lookupChild n.children (NodeKey.Exact a)).map (fun c => (c, key))).toList ++
            ((lookupChild n.children NodeKey.Wildcard).map (fun c => (c, key))).toList)
    | NodeKey.RightPar =>
      some ((lookupChild n.children NodeKey.RightPar).map (fun c => (c, key))).toList
    | NodeKey.LeftPar =>
      match head.par_size with
      | none => none
      | some size =>
        some (((lookupChild n.children NodeKey.Wildcard).map
                 (fun c => (c, key.drop size))).toList ++
              ((lookupChild n.children NodeKey.LeftPar).map (fun c => (c, key))).toList)
    | NodeKey.Wildcard =>
      some ((n.children.filter (fun p => ! p.1.is_parenthesis)).map (fun p => (p.2, key)) ++
            n.skip_pars.map (fun c => (c, key)))

/-- Explores a list of frames in order with the one-frame explorer `f`,
concatenating the reached node ids (`none` propagates a panic). -/
def exploreFramesWith {K : Type} (f : Nat → TrieKey K → Option (List Nat)) :
    List (Nat × TrieKey K) → Option (List Nat)
  | [] => some []
  | (c, k) :: rest => do
    let l ← f c k
    let ls ← exploreFramesWith f rest
    pure (l ++ ls)

/-- Embeds the `ValueExplorer` worklist of `get`: the ids of all nodes reached with
an exhausted key.  The recursion is on a fuel; every successor frame's key is
strictly shorter than its parent's, so a fuel of `key.length` is always enough
(`exploreNodes`), and a run that exhausts its fuel on a nonempty key answers
`none` exactly like a panic. -/
def exploreB {K V : Type} [DecidableEq K] (s : MultiTrie K V) :
    Nat → Nat → TrieKey K → Option (List Nat)
  | 0 => fun nid key =>
    match key with
    | [] => some [nid]
    | _ :: _ => none
  | fuel + 1 => fun nid key =>
    match key with
    | [] => some [nid]
    | head :: key =>
      match get_exploring_strategy s nid (head :: key) with
      | none => none
      | some frames => exploreFramesWith (exploreB s fuel) frames

/-- The nodes explored by `get` for a key, with sufficient fuel. -/
def exploreNodes {K V : Type} [DecidableEq K] (s : MultiTrie K V) (nid : Nat)
    (key : TrieKey K) : Option (List Nat) :=
  exploreB s key.length nid key

/-- Embeds `MultiTrieNode::get`, as the multiset of yielded values: every value of
every node reached with an exhausted key (the spec leaves the order unspecified). -/
def getValues {K V : Type} [DecidableEq K] (s : MultiTrie K V) (nid : Nat)
    (key : TrieKey K) : Option (List V) :=
  (exploreNodes s nid key).map (fun ns => ns.flatMap (fun n => (getNode s n).values))

/-- Embeds the per-branch tail of the fold inside `MultiTrieNode::remove`: when the
recursive removal succeeded and the child is now empty in the `is_empty` sense, the
parent drops the edge that pointed to it — from `children` for a labelled edge,
from `skip_pars` (keyed by node identity) for a skip-par edge. -/
def removeStep {K V : Type} [DecidableEq K] (s : MultiTrie K V) (nid : Nat)
    (lbl : Option (NodeKey K)) (c : Nat) (removed : Bool) : MultiTrie K V :=
  if removed && (getNode s c).is_empty then
    match lbl with
    | some l =>
      setNode s nid { getNode s nid with children := eraseChild (getNode s nid).children l }
    | none =>
      setNode s nid { getNode s nid with skip_pars := eraseFirst (getNode s nid).skip_pars c }
  else s

/-- Embeds the body of the fold inside `MultiTrieNode::remove`: processes the
branch list in order with the recursive remover `f`, threading the state, pruning
after each branch (`removeStep`) and ORing the per-branch results. -/
def removeBranchesWith {K V : Type} [DecidableEq K]
    (f : MultiTrie K V → Nat → TrieKey K → Option (Bool × MultiTrie K V)) (nid : Nat) :
    List (Option (NodeKey K) × Nat × TrieKey K) → MultiTrie K V →
    Option (Bool × MultiTrie K V)
  | [], s => some (false, s)
  | (lbl, c, k) :: rest, s => do
    let r1 ← f s c k
    let s2 := removeStep r1.2 nid lbl c r1.1
    let r2 ← removeBranchesWith f nid rest s2
    pure (r1.1 || r2.1, r2.2)

/-- Embeds `MultiTrieNode::remove`: on an exhausted key, removes the value from the
node's set and reports whether it was present; otherwise descends along every
branch of `childBranches`, pruning emptied children, and ORs the results.  The
fuel bounds the recursion depth exactly as for `exploreB`. -/
def removeB {K V : Type} [DecidableEq K] [DecidableEq V] (v : V) :
    Nat → MultiTrie K V → Nat → TrieKey K → Option (Bool × MultiTrie K V)
  | 0 => fun s nid key =>
    match key with
    | [] =>
      let n := getNode s nid
      some (decide (v ∈ n.values), setNode s nid { n with values := eraseFirst n.values v })
    | _ :: _ => none
  | fuel + 1 => fun s nid key =>
    match key with
    | [] =>
      let n := getNode s nid
      some (decide (v ∈ n.values), setNode s nid { n with values := eraseFirst n.values v })
    | head :: key =>
      match childBranches s nid (head :: key) with
      | none => none
      | some branches => removeBranchesWith (removeB v fuel) nid branches s

/-- The public `remove`, called on the root node with sufficient fuel. -/
def remove {K V : Type} [DecidableEq K] [DecidableEq V] (s : MultiTrie K V)
    (key : TrieKey K) (v : V) : Option (Bool × MultiTrie K V) :=
  removeB v key.length s 0 key

/-- Embeds `get_or_insert_child` (`children.entry(key).or_insert(new())`): the
existing child id, or a fresh node appended to the store and linked. -/
def getOrInsertChild {K V : Type} [DecidableEq K] (s : MultiTrie K V) (nid : Nat)
    (k : NodeKey K) : Nat × MultiTrie K V :=
  match lookupChild (getNode s nid).children k with
  | some c => (c, s)
  | none =>
    let c := s.nodes.length
    let s1 : MultiTrie K V := { nodes := s.nodes ++ [emptyNode] }
    (c, setNode s1 nid { getNode s1 nid with children := (getNode s1 nid).children ++ [(k, c)] })

/-- Embeds the walking loop of `MultiTrieNode::add`: descends through
`get_or_insert_child`, recording the visited node ids (`nodes`) and, for every
annotated `LeftPar` at position `pos`, the pair `(pos, pos + size + 1)` (`pars`).
At the end of the key, the value is inserted into the final node. -/
def addDescend {K V : Type} [DecidableEq K] [DecidableEq V] :
    MultiTrie K V → Nat → TrieKey K → Nat → List Nat → List (Nat × Nat) → V →
    MultiTrie K V × List Nat × List (Nat × Nat)
  | s, cur, [], _, ns, ps, v =>
    (setNode s cur { getNode s cur with values := insertValue (getNode s cur).values v }, ns, ps)
  | s, cur, head :: key, pos, ns, ps, v =>
    let ps' := match head with
      | { key := NodeKey.LeftPar, par_size := some size } => ps ++ [(pos, pos + size + 1)]
      | _ => ps
    let cs := getOrInsertChild s cur head.key
    addDescend cs.2 cs.1 key (pos + 1) (ns ++ [cs.1]) ps' v

/-- Embeds the skip-par fix-up ending `add`: for each recorded `(start, stop)` pair
(`stop` is the Rust `end`), a skip-par edge is inserted from the start node — the
root for `start = 0`, `nodes[start-1]` otherwise — to the end node `nodes[stop-1]`.
`none` models the panic of an out-of-range `Vec` index. -/
def addPars {K V : Type} [DecidableEq K] : MultiTrie K V → List Nat → List (Nat × Nat) →
    Option (MultiTrie K V)
  | s, _, [] => some s
  | s, ns, (start, stop) :: ps => do
    let endNode ← ns[stop - 1]?
    if start > 0 then do
      let startNode ← ns[start - 1]?
      addPars (setNode s startNode
        { getNode s startNode with
            skip_pars := insertSkip (getNode s startNode).skip_pars endNode }) ns ps
    else
      addPars (setNode s 0
        { getNode s 0 with skip_pars := insertSkip (getNode s 0).skip_pars endNode }) ns ps

/-- Embeds `MultiTrieNode::add` on the root node: an empty key inserts the value
into the root's own set; otherwise the walk descends from the root and the skip-par
pairs are installed afterwards. -/
def add {K V : Type} [DecidableEq K] [DecidableEq V] (s : MultiTrie K V) (key : TrieKey K)
    (v : V) : Option (MultiTrie K V) :=
  match key with
  | [] => some (setNode s 0 { getNode s 0 with values := insertValue (getNode s 0).values v })
  | _ :: _ =>
    let r := addDescend s 0 key 0 [] [] v
    addPars r.1 r.2.1 r.2.2

/-- The node ids visited by the walk of `add` (the `nodes` vector), one per key
position; `addNodes s key v` is meaningful for nonempty keys. -/
def addNodes {K V : Type} [DecidableEq K] [DecidableEq V] (s : MultiTrie K V)
    (key : TrieKey K) (v : V) : List Nat :=
  (addDescend s 0 key 0 [] [] v).2.1

/-- Folds `size_recursive` over a node's children with the recursive counter `f`,
threading the visited set and accumulating the count. -/
def sizeFoldWith {K : Type} (f : Nat → List Nat → Nat × List Nat) :
    List (NodeKey K × Nat) → List Nat → Nat → Nat × List Nat
  | [], counted, acc => (acc, counted)
  | (_, c) :: rest, counted, acc =>
    let r := f c counted
    sizeFoldWith f rest r.2 (acc + r.1)

/-- Embeds the test helper `MultiTrieNode::size`: counts the nodes reachable
through `children` edges, each node once (`counted` is the visited set threaded
through the recursion).  The fuel only bounds the depth; every level adds a new id
to `counted`, so `nodes.length + 1` is always enough. -/
def sizeB {K V : Type} (s : MultiTrie K V) : Nat → Nat → List Nat → Nat × List Nat
  | 0 => fun _ counted => (0, counted)
  | fuel + 1 => fun nid counted =>
    if nid ∈ counted then (0, counted)
    else sizeFoldWith (sizeB s fuel) (getNode s nid).children (counted ++ [nid]) 1

/-- `size` on the root, with sufficient fuel. -/
def size {K V : Type} (s : MultiTrie K V) : Nat :=
  (sizeB s (s.nodes.length + 1) 0 []).1

/-- Well-formedness of one node relative to the store size: edges point into the
store, `children` has at most one edge per label (it is a `HashMap`), and
`skip_pars` and `values` are duplicate-free (`HashMap` keyed by identity and
`HashSet`).  Every state the Rust code can build satisfies this. -/
def NodeWF {K V : Type} (len : Nat) (n : MultiTrieNode K V) : Prop :=
  (∀ p ∈ n.children, p.2 < len) ∧ (n.children.map Prod.fst).Nodup ∧
    (∀ c ∈ n.skip_pars, c < len) ∧ n.skip_pars.Nodup ∧ n.values.Nodup

/-- Well-formedness of a whole trie state: the root exists and every node is
well-formed.  Every state reachable through the Rust API satisfies this. -/
def WF {K V : Type} (s : MultiTrie K V) : Prop :=
  0 < s.nodes.length ∧ ∀ n ∈ s.nodes, NodeWF s.nodes.length n

instance {K V : Type} [DecidableEq K] [DecidableEq V] (len : Nat) (n : MultiTrieNode K V) :
    Decidable (NodeWF len n) := by
  unfold NodeWF
  infer_instance

instance {K V : Type} [DecidableEq K] [DecidableEq V] (s : MultiTrie K V) :
    Decidable (WF s) := by
  unfold WF
  infer_instance

/-- Partial-scan invariant of `precalcLoop`: `stack` holds the positions of the
currently open `LeftPar`s, most recent first; the tokens strictly between the top
entry and `pos` form a balanced segment, and so do, recursively, the segments
between consecutive entries and before the bottom entry. -/
def StackOK {T : Type} (ts : List (NodeKey T)) : List Nat → Nat → Prop
  | [], pos => parRun (ts.take pos) 0 = some 0
  | p :: stack, pos => p < pos ∧ ts[p]? = some NodeKey.LeftPar ∧
      parRun ((ts.take pos).drop (p + 1)) 0 = some 0 ∧ StackOK ts stack p

/-- Span soundness of an annotated key `r` for the bare tokens `ts`: every
annotation `some s` sits on a `LeftPar`, the token `s` places later is its
matching `RightPar`, and the tokens strictly between the two are balanced. -/
def SpansOK {T : Type} (ts : List (NodeKey T)) (r : TrieKey T) : Prop :=
  ∀ i e, r[i]? = some e → ∀ s, e.par_size = some s →
    e.key = NodeKey.LeftPar ∧ i + s < ts.length ∧ ts[i + s]? = some NodeKey.RightPar ∧
    parRun ((ts.take (i + s)).drop (i + 1)) 0 = some 0

/-- Invariant for the processed prefix of `precalcLoop`: every annotation already
written is span-sound and bounded by `pos`, and every still-unannotated `LeftPar`
sits on the stack. -/
def DoneOK {T : Type} (ts : List (NodeKey T)) (acc : List (AnnKey T)) (pos : Nat)
    (stack : List Nat) : Prop :=
  ∀ j e, acc[j]? = some e →
    (∀ s, e.par_size = some s →
      e.key = NodeKey.LeftPar ∧ j + s < pos ∧ ts[j + s]? = some NodeKey.RightPar ∧
      parRun ((ts.take (j + s)).drop (j + 1)) 0 = some 0) ∧
    (e.key = NodeKey.LeftPar → e.par_size = none → j ∈ stack)

/-- The labelled descent path of `add`: `ChainOK s cur key ids` says that `ids` are
the nodes reached from `cur` by following, for each key token in turn, the child
edge labelled with that token's raw variant. -/
def ChainOK {K V : Type} [DecidableEq K] (s : MultiTrie K V) : Nat → TrieKey K → List Nat → Prop
  | _, [], ids => ids = []
  | cur, head :: rest, ids =>
    ∃ c ids2, ids = c :: ids2 ∧ lookupChild (getNode s cur).children head.key = some c ∧
      ChainOK s c rest ids2

/-- The last node of a walk that starts at `cur` and passes through `ids`. -/
def lastId (cur : Nat) (ids : List Nat) : Nat := ids.getLastD cur

/-- The `(start, start + size + 1)` pairs the walk of `add` records for a key whose
first token sits at position `pos`. -/
def parsOf {T : Type} : TrieKey T → Nat → List (Nat × Nat)
  | [], _ => []
  | head :: rest, pos =>
    (match head with
     | { key := NodeKey.LeftPar, par_size := some size } => [(pos, pos + size + 1)]
     | _ => []) ++ parsOf rest (pos + 1)

/-- One node shrinks into another: every field is a sublist, so both membership
and duplicate-freedom transfer.  `remove` only ever shrinks nodes. -/
def NodeLE {K V : Type} (a b : MultiTrieNode K V) : Prop :=
  a.children.Sublist b.children ∧ a.skip_pars.Sublist b.skip_pars ∧ a.values.Sublist b.values

/-- One state shrinks into another: same store size and every node shrinks. -/
def StateLE {K V : Type} (a b : MultiTrie K V) : Prop :=
  a.nodes.length = b.nodes.length ∧ ∀ nid, NodeLE (getNode a nid) (getNode b nid)

/-- Prune soundness from state `a` to state `b`: every labelled child edge and
every skip-par entry that disappears between the two states pointed at a node
that is empty in `b` in the `is_empty` sense of the code (no children and no
values; `skip_pars` is not consulted). -/
def PruneSound {K V : Type} (a b : MultiTrie K V) : Prop :=
  (∀ m l c, (l, c) ∈ (getNode a m).children → (l, c) ∉ (getNode b m).children →
    (getNode b c).is_empty = true) ∧
  (∀ m c, c ∈ (getNode a m).skip_pars → c ∉ (getNode b m).skip_pars →
    (getNode b c).is_empty = true)

/-- The key `( )` — a `LeftPar` annotated with its span 1 and its `RightPar` — as
`from_list` builds it. -/
def keyParPair : TrieKey Nat :=
  [{ key := NodeKey.LeftPar, par_size := some 1 }, { key := NodeKey.RightPar, par_size := none }]

/-- The single-token wildcard key. -/
def keyWild : TrieKey Nat := [{ key := NodeKey.Wildcard, par_size := none }]

/-- The single-token key `Exact 0`. -/
def keyExact0 : TrieKey Nat := [{ key := NodeKey.Exact 0, par_size := none }]

/-- The two-token key `Exact 0, Exact 1`. -/
def keyExact01 : TrieKey Nat :=
  [{ key := NodeKey.Exact 0, par_size := none }, { key := NodeKey.Exact 1, par_size := none }]

/-- The doubly nested key `( ( ) )` as `from_list` builds it. -/
def keyNested : TrieKey Nat :=
  [{ key := NodeKey.LeftPar, par_size := some 3 }, { key := NodeKey.LeftPar, par_size := some 1 },
   { key := NodeKey.RightPar, par_size := none }, { key := NodeKey.RightPar, par_size := none }]

/-- Adds `(( ), 0)` and `(*, 0)` to the empty trie, then removes the same two pairs
(wildcard key first); yields the two removal results and the final node count.  The
wildcard removal reaches the node after `)` through the root's skip-par edge,
empties it and deletes only the skip-par entry, leaving the labelled chain
`root → ( → )` of empty nodes in place, so the second removal finds nothing to
remove and prunes nothing. -/
def removeUndoScenario : Option (Bool × Bool × Nat) := do
  let s1 ← add (MultiTrie.new : MultiTrie Nat Nat) keyParPair 0
  let s2 ← add s1 keyWild 0
  let r1 ← remove s2 keyWild 0
  let r2 ← remove r1.2 keyParPair 0
  pure (r1.1, r2.1, size r2.2)

/-- Adds `(( ( ) ), 0)` to the empty trie and removes it again; yields the root's
children map and the skip-par set of node 1 (the node after the outer `(`) in the
final state.  Node 1 still holds a skip-par entry when the cascade of prunes
reaches it, yet the root deletes the edge to it, because `is_empty` does not
consult `skip_pars`. -/
def pruneScenario : Option (List (NodeKey Nat × Nat) × List Nat) := do
  let s1 ← add (MultiTrie.new : MultiTrie Nat Nat) keyNested 0
  let r ← remove s1 keyNested 0
  pure ((getNode r.2 0).children, (getNode r.2 1).skip_pars)

/-- Adds `(Exact 0, 7)` and `(*, 7)` to the empty trie and then removes
`(Exact 0, 7)`; yields how often `get (Exact 0)` yields 7 before the removal, the
removal's result, and how often `get (Exact 0)` yields 7 after it. -/
def occurrenceScenario : Option (Nat × Bool × Nat) := do
  let s1 ← add (MultiTrie.new : MultiTrie Nat Nat) keyExact0 7
  let s2 ← add s1 keyWild 7
  let before ← getValues s2 0 keyExact0
  let r ← remove s2 keyExact0 7
  let after ← getValues r.2 0 keyExact0
  pure (before.count 7, r.1, after.count 7)

/-- Adds `(*, 7)` to the empty trie and queries the two-token key `Exact 0, Exact 1`;
yields the values of the query. -/
def wildcardMissScenario : Option (List Nat) := do
  let s1 ← add (MultiTrie.new : MultiTrie Nat Nat) keyWild 7
  getValues s1 0 keyExact01

end Multitrie

namespace Multitrie

/-! ### Balance toolkit -/

theorem parRun_append {T : Type} (l1 l2 : List (NodeKey T)) (d : Nat) :
    parRun (l1 ++ l2) d = (parRun l1 d).bind (fun e => parRun l2 e) := by
  induction l1 generalizing d with
  | nil => simp [parRun]
  | cons x l ih =>
    cases x with
    | Exact a => simpa [parRun] using ih d
    | Wildcard => simpa [parRun] using ih d
    | LeftPar => simpa [parRun] using ih (d + 1)
    | RightPar =>
      cases d with
      | zero => simp [parRun]
      | succ e => simpa [parRun] using ih e

theorem parRun_succ {T : Type} {l : List (NodeKey T)} {d e : Nat}
    (h : parRun l d = some e) : parRun l (d + 1) = some (e + 1) := by
  induction l generalizing d e with
  | nil =>
    simp [parRun] at h
    simp [parRun, h]
  | cons x l ih =>
    cases x with
    | Exact a =>
      simp [parRun] at h ⊢
      exact ih h
    | Wildcard =>
      simp [parRun] at h ⊢
      exact ih h
    | LeftPar =>
      simp [parRun] at h ⊢
      exact ih h
    | RightPar =>
      cases d with
      | zero => simp [parRun] at h
      | succ d =>
        simp [parRun] at h ⊢
        exact ih h

theorem Balanced.append {T : Type} {a b : List (NodeKey T)} (ha : Balanced a)
    (hb : Balanced b) : Balanced (a ++ b) := by
  unfold Balanced at *
  rw [parRun_append, ha]
  simpa using hb

theorem Balanced.wrap {T : Type} {l : List (NodeKey T)} (h : Balanced l) :
    Balanced (NodeKey.LeftPar :: (l ++ [NodeKey.RightPar])) := by
  unfold Balanced at *
  show parRun (NodeKey.LeftPar :: (l ++ [NodeKey.RightPar])) 0 = some 0
  have h1 : parRun l 1 = some 1 := parRun_succ h
  simp [parRun, parRun_append, h1]

theorem balanced_nil {T : Type} : Balanced ([] : List (NodeKey T)) := rfl

/-! ### Small list helpers -/

theorem list_set_same {α : Type} {l : List α} {i : Nat} {b : α} (h : l[i]? = some b) :
    l.set i b = l := by
  induction l generalizing i with
  | nil => simp at h
  | cons x l ih =>
    cases i with
    | zero =>
      simp at h
      simp [h]
    | succ i =>
      simp at h
      simp [ih h]

theorem setParSize_map_key {T : Type} (l : List (AnnKey T)) (i s : Nat) :
    (setParSize l i s).map AnnKey.key = l.map AnnKey.key := by
  unfold setParSize
  cases h : l[i]? with
  | none => rfl
  | some e =>
    rw [List.map_set]
    apply list_set_same
    simp [List.getElem?_map, h]

theorem setParSize_length {T : Type} (l : List (AnnKey T)) (i s : Nat) :
    (setParSize l i s).length = l.length := by
  unfold setParSize
  cases h : l[i]? <;> simp

theorem setParSize_get_same {T : Type} {l : List (AnnKey T)} {i : Nat} {e : AnnKey T}
    (h : l[i]? = some e) (s : Nat) :
    (setParSize l i s)[i]? = some { e with par_size := some s } := by
  unfold setParSize
  rw [h]
  have hi : i < l.length := by
    by_contra hc
    rw [List.getElem?_eq_none (by omega)] at h
    exact Option.noConfusion h
  simp [List.getElem?_set_self, hi]

theorem setParSize_get_other {T : Type} {l : List (AnnKey T)} {i j : Nat} (hne : j ≠ i)
    (s : Nat) : (setParSize l i s)[j]? = l[j]? := by
  unfold setParSize
  cases h : l[i]? with
  | none => rfl
  | some e => rw [List.getElem?_set_ne (by omega)]

end Multitrie

namespace Multitrie

/-! ### Stack invariant of the parenthesis scan -/

theorem StackOK_mem {T : Type} {ts : List (NodeKey T)} :
    ∀ {stack : List Nat} {pos : Nat}, StackOK ts stack pos →
      ∀ p ∈ stack, ts[p]? = some NodeKey.LeftPar := by
  intro stack
  induction stack with
  | nil => intro pos _ p hp; simp at hp
  | cons q stack ih =>
    intro pos h p hp
    obtain ⟨_, hL, _, hrest⟩ := h
    rcases List.mem_cons.mp hp with h | h
    · exact h ▸ hL
    · exact ih hrest p h

theorem StackOK_extend {T : Type} {ts : List (NodeKey T)} {stack : List Nat} {pos : Nat}
    {b : NodeKey T} (h : StackOK ts stack pos) (hget : ts[pos]? = some b)
    (hb : parRun [b] 0 = some 0) : StackOK ts stack (pos + 1) := by
  have hpos_lt : pos < ts.length := by
    rcases List.getElem?_eq_some_iff.mp hget with ⟨h1, _⟩
    exact h1
  have htake1 : ts.take (pos + 1) = ts.take pos ++ [b] := by
    rw [List.take_succ, hget]
    rfl
  cases stack with
  | nil =>
    show parRun (ts.take (pos + 1)) 0 = some 0
    rw [htake1, parRun_append, h]
    simpa using hb
  | cons p stack =>
    obtain ⟨hp, hL, hseg, hrest⟩ := h
    refine ⟨Nat.lt_succ_of_lt hp, hL, ?_, hrest⟩
    have hdrop : (ts.take (pos + 1)).drop (p + 1) = (ts.take pos).drop (p + 1) ++ [b] := by
      rw [htake1, List.drop_append_of_le_length]
      simp [List.length_take]
      omega
    rw [hdrop, parRun_append, hseg]
    simpa using hb

theorem StackOK_pop {T : Type} {ts : List (NodeKey T)} {start : Nat} {stack : List Nat}
    {pos : Nat} (h : StackOK ts (start :: stack) pos)
    (hget : ts[pos]? = some NodeKey.RightPar) : StackOK ts stack (pos + 1) := by
  obtain ⟨hlt, hL, hseg, hrest⟩ := h
  have hpos_lt : pos < ts.length := by
    rcases List.getElem?_eq_some_iff.mp hget with ⟨h1, _⟩
    exact h1
  have hstart_lt : start < ts.length := Nat.lt_trans hlt hpos_lt
  have htake1 : ts.take (pos + 1) = ts.take pos ++ [NodeKey.RightPar] := by
    rw [List.take_succ, hget]
    rfl
  have htake_pos : ts.take pos =
      ts.take start ++ (NodeKey.LeftPar :: (ts.take pos).drop (start + 1)) := by
    have h1 : ts.take pos = (ts.take pos).take (start + 1) ++ (ts.take pos).drop (start + 1) :=
      (List.take_append_drop _ _).symm
    have h2 : (ts.take pos).take (start + 1) = ts.take (start + 1) := by
      rw [List.take_take]
      congr 1
      omega
    have h3 : ts.take (start + 1) = ts.take start ++ [NodeKey.LeftPar] := by
      rw [List.take_succ, hL]
      rfl
    calc ts.take pos = (ts.take pos).take (start + 1) ++ (ts.take pos).drop (start + 1) := h1
      _ = ts.take start ++ [NodeKey.LeftPar] ++ (ts.take pos).drop (start + 1) := by
          rw [h2, h3]
      _ = ts.take start ++ (NodeKey.LeftPar :: (ts.take pos).drop (start + 1)) := by
          simp

  have hwrap : parRun
      (NodeKey.LeftPar :: ((ts.take pos).drop (start + 1) ++ [NodeKey.RightPar])) 0 =
      some 0 := Balanced.wrap hseg
  have hsplit : ts.take (pos + 1) = ts.take start ++
      (NodeKey.LeftPar :: ((ts.take pos).drop (start + 1) ++ [NodeKey.RightPar])) := by
    calc ts.take (pos + 1) = ts.take pos ++ [NodeKey.RightPar] := htake1
      _ = (ts.take start ++ (NodeKey.LeftPar :: (ts.take pos).drop (start + 1))) ++
            [NodeKey.RightPar] := congrArg (· ++ [NodeKey.RightPar]) htake_pos
      _ = ts.take start ++
            (NodeKey.LeftPar :: ((ts.take pos).drop (start + 1) ++ [NodeKey.RightPar])) := by
          simp
  cases stack with
  | nil =>
    show parRun (ts.take (pos + 1)) 0 = some 0
    have hbase : parRun (ts.take start) 0 = some 0 := hrest
    rw [hsplit, parRun_append, hbase]
    simpa using hwrap
  | cons q stack =>
    obtain ⟨hq, hqL, hqseg, hqrest⟩ := hrest
    refine ⟨by omega, hqL, ?_, hqrest⟩
    have hdrop : (ts.take (pos + 1)).drop (q + 1) = (ts.take start).drop (q + 1) ++
        (NodeKey.LeftPar :: ((ts.take pos).drop (start + 1) ++ [NodeKey.RightPar])) := by
      rw [hsplit, List.drop_append_of_le_length]
      simp [List.length_take]
      omega
    rw [hdrop, parRun_append, hqseg]
    simpa using hwrap

theorem DoneOK_snoc {T : Type} {ts : List (NodeKey T)} {acc : List (AnnKey T)}
    {pos : Nat} {stack stack2 : List Nat} (hdone : DoneOK ts acc pos stack)
    (hlen : acc.length = pos) (hsub : ∀ p ∈ stack, p ∈ stack2) {e : AnnKey T}
    (hnone : e.par_size = none) (hL : e.key = NodeKey.LeftPar → pos ∈ stack2) :
    DoneOK ts (acc ++ [e]) (pos + 1) stack2 := by
  intro j f hj
  rcases Nat.lt_trichotomy j acc.length with hlt | heq | hgt
  · rw [List.getElem?_append_left hlt] at hj
    obtain ⟨h1, h2⟩ := hdone j f hj
    constructor
    · intro s hs
      obtain ⟨k1, k2, k3, k4⟩ := h1 s hs
      exact ⟨k1, by omega, k3, k4⟩
    · intro hk hn
      exact hsub j (h2 hk hn)
  · subst heq
    rw [List.getElem?_concat_length] at hj
    cases hj
    constructor
    · intro s hs
      rw [hnone] at hs
      cases hs
    · intro hk _
      rw [hlen]
      exact hL hk
  · rw [List.getElem?_eq_none (by simp; omega)] at hj
    cases hj

end Multitrie

namespace Multitrie

theorem precalcLoop_main {T : Type} (ts : List (NodeKey T)) :
    ∀ (rest : List (NodeKey T)) (pos : Nat) (stack : List Nat) (acc : List (AnnKey T)),
      rest = ts.drop pos → acc.length = pos → acc.map AnnKey.key = ts.take pos →
      StackOK ts stack pos → DoneOK ts acc pos stack →
      (∀ r, precalcLoop rest pos stack acc = Except.ok r →
        r.map AnnKey.key = ts ∧ KeyTotal r ∧ SpansOK ts r ∧ Balanced ts) ∧
      (∀ msg, precalcLoop rest pos stack acc = Except.error msg →
        (∃ p, msg = rightParErr p ∧ ts[p]? = some NodeKey.RightPar ∧ Balanced (ts.take p)) ∨
        (∃ ps, msg = leftParErr ps ∧ ps ≠ [] ∧ ∀ p ∈ ps, ts[p]? = some NodeKey.LeftPar)) := by
  intro rest
  induction rest with
  | nil =>
    intro pos stack acc hrest hlen hmap hstack hdone
    have hge : ts.length ≤ pos := by
      have h0 := congrArg List.length hrest
      simp at h0
      omega
    have hle : pos ≤ ts.length := by
      have h0 := congrArg List.length hmap
      simp [List.length_take] at h0
      omega
    have hpos : pos = ts.length := by omega
    constructor
    · intro r hr
      by_cases hs : stack.isEmpty
      · have hstack_nil : stack = [] := by
          cases stack with
          | nil => rfl
          | cons a l => simp at hs
        simp only [precalcLoop, hs, if_true] at hr
        injection hr with hr
        subst hr
        refine ⟨by rw [hmap, hpos, List.take_length], ?_, ?_, ?_⟩
        · intro e he hkey
          rcases List.mem_iff_getElem?.mp he with ⟨j, hj⟩
          cases hps : e.par_size with
          | some s => rfl
          | none =>
            have h2 := (hdone j e hj).2 hkey hps
            rw [hstack_nil] at h2
            simp at h2
        · intro i e hi s hs'
          obtain ⟨k1, k2, k3, k4⟩ := (hdone i e hi).1 s hs'
          exact ⟨k1, by omega, k3, k4⟩
        · have hb : parRun (ts.take pos) 0 = some 0 := by
            rw [hstack_nil] at hstack
            exact hstack
          rwa [hpos, List.take_length] at hb
      · simp [precalcLoop, hs] at hr
    · intro msg hmsg
      by_cases hs : stack.isEmpty
      · simp [precalcLoop, hs] at hmsg
      · simp only [precalcLoop, hs, if_false] at hmsg
        injection hmsg with hmsg
        right
        refine ⟨stack.reverse, hmsg.symm, ?_, ?_⟩
        · intro hnil
          simp at hnil
          rw [hnil] at hs
          simp at hs
        · intro p hp
          exact StackOK_mem hstack p (List.mem_reverse.mp hp)
  | cons bare rest ih =>
    intro pos stack acc hrest hlen hmap hstack hdone
    have hget : ts[pos]? = some bare := by
      have h0 : (ts.drop pos)[0]? = some bare := by
        rw [← hrest]
        simp
      rwa [List.getElem?_drop, Nat.add_zero] at h0
    have hrest' : rest = ts.drop (pos + 1) := by
      have h0 : (ts.drop pos).tail = ts.drop (pos + 1) := by
        rw [List.tail_drop]
      rw [← hrest] at h0
      simpa using h0
    have hpos_lt : pos < ts.length := (List.getElem?_eq_some_iff.mp hget).1
    have htake1 : ts.take (pos + 1) = ts.take pos ++ [bare] := by
      rw [List.take_succ, hget]
      rfl
    cases bare with
    | Exact a =>
      have hrec := ih (pos + 1) stack (acc ++ [{ key := NodeKey.Exact a, par_size := none }])
        hrest' (by simp [hlen]) (by simp [hmap, htake1])
        (StackOK_extend hstack hget rfl)
        (DoneOK_snoc hdone hlen (fun p hp => hp) rfl (by intro hk; simp at hk))
      simpa only [precalcLoop] using hrec
    | Wildcard =>
      have hrec := ih (pos + 1) stack (acc ++ [{ key := NodeKey.Wildcard, par_size := none }])
        hrest' (by simp [hlen]) (by simp [hmap, htake1])
        (StackOK_extend hstack hget rfl)
        (DoneOK_snoc hdone hlen (fun p hp => hp) rfl (by intro hk; simp at hk))
      simpa only [precalcLoop] using hrec
    | LeftPar =>
      have hrec := ih (pos + 1) (pos :: stack)
        (acc ++ [{ key := NodeKey.LeftPar, par_size := none }])
        hrest' (by simp [hlen]) (by simp [hmap, htake1])
        (by
          refine ⟨Nat.lt_succ_self pos, hget, ?_, hstack⟩
          have h0 : (ts.take (pos + 1)).drop (pos + 1) = [] := by
            apply List.drop_eq_nil_of_le
            simp
          rw [h0]
          rfl)
        (DoneOK_snoc hdone hlen (fun p hp => List.mem_cons_of_mem _ hp) rfl
          (fun _ => List.mem_cons_self _ _))
      simpa only [precalcLoop] using hrec
    | RightPar =>
      cases stack with
      | nil =>
        constructor
        · intro r hr
          simp [precalcLoop] at hr
        · intro msg hmsg
          simp only [precalcLoop] at hmsg
          injection hmsg with hmsg
          left
          exact ⟨pos, hmsg.symm, hget, hstack⟩
      | cons start stack' =>
        obtain ⟨hslt, hsL, hsseg, hsrest⟩ := hstack
        have hpop := StackOK_pop ⟨hslt, hsL, hsseg, hsrest⟩ hget
        have hstart_lt_acc : start < acc.length := by omega
        obtain ⟨e0, he0⟩ : ∃ e0, acc[start]? = some e0 := by
          rcases h0 : acc[start]? with _ | e0
          · rw [List.getElem?_eq_none_iff] at h0
            omega
          · exact ⟨e0, rfl⟩
        have he0key : e0.key = NodeKey.LeftPar := by
          have h1 : (acc.map AnnKey.key)[start]? = some e0.key := by
            rw [List.getElem?_map, he0]
            rfl
          rw [hmap] at h1
          have h2 : (ts.take pos)[start]? = ts[start]? := by
            rw [List.getElem?_take]
            simp [hslt]
          rw [h2, hsL] at h1
          injection h1 with h1
          exact h1.symm
        have hacc1 : (acc ++ [{ key := NodeKey.RightPar, par_size := none }])[start]? =
            some e0 := by
          rw [List.getElem?_append_left hstart_lt_acc, he0]
        have hdone' : DoneOK ts
            (setParSize (acc ++ [{ key := NodeKey.RightPar, par_size := none }]) start
              (pos - start)) (pos + 1) stack' := by
          intro j f hj
          rcases eq_or_ne j start with heq | hne
          · subst heq
            rw [setParSize_get_same hacc1] at hj
            injection hj with hj
            subst hj
            constructor
            · intro s hs
              simp at hs
              have hseq : j + s = pos := by omega
              refine ⟨by simpa using he0key, by omega, ?_, ?_⟩
              · rw [hseq]
                exact hget
              · rw [hseq]
                exact hsseg
            · intro _ hn
              simp at hn
          · rw [setParSize_get_other hne] at hj
            rcases Nat.lt_trichotomy j acc.length with hlt | heqj | hgt
            · rw [List.getElem?_append_left hlt] at hj
              obtain ⟨h1, h2⟩ := hdone j f hj
              refine ⟨fun s hs => ?_, fun hk hn => ?_⟩
              · obtain ⟨k1, k2, k3, k4⟩ := h1 s hs
                exact ⟨k1, by omega, k3, k4⟩
              · have h3 := h2 hk hn
                rcases List.mem_cons.mp h3 with h | h
                · exact absurd h hne
                · exact h
            · rw [heqj, List.getElem?_concat_length] at hj
              injection hj with hj
              subst hj
              constructor
              · intro s hs
                simp at hs
              · intro hk
                simp at hk
            · rw [List.getElem?_eq_none (by simp; omega)] at hj
              cases hj
        have hrec := ih (pos + 1) stack'
          (setParSize (acc ++ [{ key := NodeKey.RightPar, par_size := none }]) start
            (pos - start))
          hrest' (by rw [setParSize_length]; simp [hlen])
          (by rw [setParSize_map_key]; simp [hmap, htake1]) hpop hdone'
        simpa only [precalcLoop] using hrec

end Multitrie

namespace Multitrie

theorem precalcLoop_isOk_iff {T : Type} :
    ∀ (rest : List (NodeKey T)) (pos : Nat) (stack : List Nat) (acc : List (AnnKey T)),
      (∃ r, precalcLoop rest pos stack acc = Except.ok r) ↔
        parRun rest stack.length = some 0 := by
  intro rest
  induction rest with
  | nil =>
    intro pos stack acc
    by_cases hs : stack.isEmpty
    · have h0 : stack.length = 0 := by
        cases stack with
        | nil => rfl
        | cons a l => simp at hs
      simp [precalcLoop, hs, parRun, h0]
    · have h0 : stack.length ≠ 0 := by
        cases stack with
        | nil => simp at hs
        | cons a l => simp
      simp [precalcLoop, hs, parRun, h0]
  | cons bare rest ih =>
    intro pos stack acc
    cases bare with
    | Exact a => simpa [precalcLoop, parRun] using ih (pos + 1) stack _
    | Wildcard => simpa [precalcLoop, parRun] using ih (pos + 1) stack _
    | LeftPar =>
      have h0 := ih (pos + 1) (pos :: stack) (acc ++ [{ key := NodeKey.LeftPar, par_size := none }])
      simpa [precalcLoop, parRun] using h0
    | RightPar =>
      cases stack with
      | nil => simp [precalcLoop, parRun]
      | cons q stack' => simpa [precalcLoop, parRun] using ih (pos + 1) stack' _

theorem precalc_ok_iff {T : Type} (ts : List (NodeKey T)) :
    (∃ r, precalculate_par_sizes ts = Except.ok r) ↔ Balanced ts := by
  have h := precalcLoop_isOk_iff ts 0 [] ([] : List (AnnKey T))
  simpa [precalculate_par_sizes, Balanced] using h

theorem precalc_main {T : Type} (ts : List (NodeKey T)) :
    (∀ r, precalculate_par_sizes ts = Except.ok r →
      r.map AnnKey.key = ts ∧ KeyTotal r ∧ SpansOK ts r ∧ Balanced ts) ∧
    (∀ msg, precalculate_par_sizes ts = Except.error msg →
      (∃ p, msg = rightParErr p ∧ ts[p]? = some NodeKey.RightPar ∧ Balanced (ts.take p)) ∨
      (∃ ps, msg = leftParErr ps ∧ ps ≠ [] ∧ ∀ p ∈ ps, ts[p]? = some NodeKey.LeftPar)) := by
  have h := precalcLoop_main ts ts 0 [] [] (by simp) rfl (by simp)
    (by
      show parRun (ts.take 0) 0 = some 0
      simp [parRun])
    (by
      intro j e hj
      simp at hj)
  exact h

theorem precalc_ok_props {T : Type} {ts : List (NodeKey T)} {r : TrieKey T}
    (h : precalculate_par_sizes ts = Except.ok r) :
    r.map AnnKey.key = ts ∧ KeyTotal r ∧ SpansOK ts r ∧ Balanced ts :=
  (precalc_main ts).1 r h

theorem precalc_length {T : Type} {ts : List (NodeKey T)} {r : TrieKey T}
    (h : precalculate_par_sizes ts = Except.ok r) : r.length = ts.length := by
  have h1 := (precalc_ok_props h).1
  have h2 := congrArg List.length h1
  simpa using h2

theorem KeyTotal_drop {T : Type} {k : TrieKey T} (h : KeyTotal k) (n : Nat) :
    KeyTotal (k.drop n) :=
  fun e he hL => h e (List.drop_subset n k he) hL

theorem KeyTotal_tail {T : Type} {e0 : AnnKey T} {k : TrieKey T} (h : KeyTotal (e0 :: k)) :
    KeyTotal k :=
  fun e he hL => h e (List.mem_cons_of_mem _ he) hL

/-- Spans of a `from_list` key stay inside the key: if position `i` carries the
annotation `some s` then `i + s` is a position of the key. -/
theorem precalc_spans_lt {T : Type} {ts : List (NodeKey T)} {r : TrieKey T}
    (h : precalculate_par_sizes ts = Except.ok r) {i s : Nat} {e : AnnKey T}
    (hi : r[i]? = some e) (hs : e.par_size = some s) : i + s < r.length := by
  obtain ⟨-, hb, -, -⟩ := (precalc_ok_props h).2.2.1 i e hi s hs
  rw [precalc_length h]
  exact hb

/-- C2: `from_list` (i.e. `precalculate_par_sizes`) succeeds exactly on balanced
token sequences; on success every `LeftPar` carries a span `s`, the token `s`
places later is a `RightPar`, and the tokens strictly between are balanced; on
failure the diagnostic names the offending positions (the unmatched `RightPar`,
or the list of unmatched `LeftPar`s). -/
theorem claim_C2_from_list_balance {T : Type} (ts : List (NodeKey T)) :
    ((∃ r, precalculate_par_sizes ts = Except.ok r) ↔ Balanced ts) ∧
    (∀ r, precalculate_par_sizes ts = Except.ok r →
      r.map AnnKey.key = ts ∧ KeyTotal r ∧ SpansOK ts r) ∧
    (¬ Balanced ts →
      (∃ p, precalculate_par_sizes ts = Except.error (rightParErr p) ∧
        ts[p]? = some NodeKey.RightPar ∧ Balanced (ts.take p)) ∨
      (∃ ps, ps ≠ [] ∧ precalculate_par_sizes ts = Except.error (leftParErr ps) ∧
        ∀ p ∈ ps, ts[p]? = some NodeKey.LeftPar)) := by
  refine ⟨precalc_ok_iff ts, ?_, ?_⟩
  · intro r hr
    obtain ⟨h1, h2, h3, _⟩ := precalc_ok_props hr
    exact ⟨h1, h2, h3⟩
  · intro hnb
    rcases hres : precalculate_par_sizes ts with msg | r
    · rcases (precalc_main ts).2 msg hres with ⟨p, hm, hR, hB⟩ | ⟨ps, hm, hne, hall⟩
      · exact Or.inl ⟨p, by rw [hm], hR, hB⟩
      · exact Or.inr ⟨ps, hne, by rw [hm], hall⟩
    · exact absurd ((precalc_ok_iff ts).mp ⟨r, hres⟩) hnb

/-- Witness for C2 at concrete inputs: the balanced sequence `( )` is accepted and
annotated with span 1, and the unbalanced sequence `)` is rejected. -/
theorem claim_C2_witness :
    ((∃ r, precalculate_par_sizes [NodeKey.LeftPar, (NodeKey.RightPar : NodeKey Nat)] =
        Except.ok r) ↔ Balanced [NodeKey.LeftPar, (NodeKey.RightPar : NodeKey Nat)]) ∧
    (¬ Balanced [(NodeKey.RightPar : NodeKey Nat)] →
      (∃ p, precalculate_par_sizes [(NodeKey.RightPar : NodeKey Nat)] =
          Except.error (rightParErr p) ∧
        [(NodeKey.RightPar : NodeKey Nat)][p]? = some NodeKey.RightPar ∧
        Balanced ([(NodeKey.RightPar : NodeKey Nat)].take p)) ∨
      (∃ ps, ps ≠ [] ∧ precalculate_par_sizes [(NodeKey.RightPar : NodeKey Nat)] =
          Except.error (leftParErr ps) ∧
        ∀ p ∈ ps, [(NodeKey.RightPar : NodeKey Nat)][p]? = some NodeKey.LeftPar)) :=
  ⟨(claim_C2_from_list_balance [NodeKey.LeftPar, NodeKey.RightPar]).1,
   (claim_C2_from_list_balance [NodeKey.RightPar]).2.2⟩

end Multitrie

namespace Multitrie

/-! ### Association-list lookups -/

theorem lookupChild_mem {K : Type} [DecidableEq K] :
    ∀ {l : List (NodeKey K × Nat)} {k : NodeKey K} {c : Nat},
      lookupChild l k = some c → (k, c) ∈ l := by
  intro l
  induction l with
  | nil => intro k c h; simp [lookupChild] at h
  | cons p rest ih =>
    intro k c h
    obtain ⟨l0, c0⟩ := p
    simp only [lookupChild] at h
    by_cases he : l0 = k
    · rw [if_pos he] at h
      injection h with h
      subst he
      subst h
      exact List.mem_cons_self _ _
    · rw [if_neg he] at h
      exact List.mem_cons_of_mem _ (ih h)

theorem mem_lookupChild_of_nodup {K : Type} [DecidableEq K] :
    ∀ {l : List (NodeKey K × Nat)}, (l.map Prod.fst).Nodup →
      ∀ {k : NodeKey K} {c : Nat}, (k, c) ∈ l → lookupChild l k = some c := by
  intro l
  induction l with
  | nil => intro _ k c hm; simp at hm
  | cons p rest ih =>
    intro hnd k c hm
    obtain ⟨l0, c0⟩ := p
    simp only [List.map_cons, List.nodup_cons] at hnd
    rcases List.mem_cons.mp hm with h | h
    · injection h with h1 h2
      subst h1
      subst h2
      simp [lookupChild]
    · have hne : l0 ≠ k := by
        intro he
        subst he
        exact hnd.1 (List.mem_map_of_mem Prod.fst h)
      simp only [lookupChild, if_neg hne]
      exact ih hnd.2 h

theorem lookupChild_append_some {K : Type} [DecidableEq K]
    {l l2 : List (NodeKey K × Nat)} {k : NodeKey K} {c : Nat}
    (h : lookupChild l k = some c) : lookupChild (l ++ l2) k = some c := by
  induction l with
  | nil => simp [lookupChild] at h
  | cons p rest ih =>
    obtain ⟨l0, c0⟩ := p
    simp only [lookupChild] at h ⊢
    by_cases he : l0 = k
    · rwa [if_pos he] at h ⊢
    · rw [if_neg he] at h ⊢
      exact ih h

theorem lookupChild_none_iff {K : Type} [DecidableEq K] :
    ∀ {l : List (NodeKey K × Nat)} {k : NodeKey K},
      lookupChild l k = none ↔ ∀ p ∈ l, p.1 ≠ k := by
  intro l
  induction l with
  | nil => intro k; simp [lookupChild]
  | cons p rest ih =>
    intro k
    obtain ⟨l0, c0⟩ := p
    simp only [lookupChild]
    by_cases he : l0 = k
    · simp [if_pos he, he]
    · simp only [if_neg he]
      rw [ih]
      simp [he]

/-! ### The two successor computations agree -/

theorem strategy_eq_branches {K V : Type} [DecidableEq K] (s : MultiTrie K V) (nid : Nat)
    (key : TrieKey K) :
    get_exploring_strategy s nid key =
      (childBranches s nid key).map (List.map (fun b => b.2)) := by
  cases key with
  | nil => rfl
  | cons head rest =>
    obtain ⟨hkey, hps⟩ := head
    cases hkey with
    | Exact a =>
      simp only [get_exploring_strategy, childBranches]
      cases lookupChild (getNode s nid).children (NodeKey.Exact a) <;>
        cases lookupChild (getNode s nid).children NodeKey.Wildcard <;> simp
    | RightPar =>
      simp only [get_exploring_strategy, childBranches]
      cases lookupChild (getNode s nid).children NodeKey.RightPar <;> simp
    | LeftPar =>
      cases hps with
      | none => rfl
      | some size =>
        simp only [get_exploring_strategy, childBranches]
        cases lookupChild (getNode s nid).children NodeKey.Wildcard <;>
          cases lookupChild (getNode s nid).children NodeKey.LeftPar <;> simp
    | Wildcard =>
      simp only [get_exploring_strategy, childBranches, Option.map_some']
      congr 1
      simp only [List.map_append, List.map_map]
      rfl

theorem strategy_some_of_KeyTotal {K V : Type} [DecidableEq K] (s : MultiTrie K V)
    (nid : Nat) {head : AnnKey K} {rest : TrieKey K} (hk : KeyTotal (head :: rest)) :
    ∃ frames, get_exploring_strategy s nid (head :: rest) = some frames := by
  obtain ⟨hkey, hps⟩ := head
  cases hkey with
  | Exact a => exact ⟨_, rfl⟩
  | RightPar => exact ⟨_, rfl⟩
  | Wildcard => exact ⟨_, rfl⟩
  | LeftPar =>
    cases hps with
    | none =>
      have h0 := hk ⟨NodeKey.LeftPar, none⟩ (List.mem_cons_self _ _) rfl
      simp at h0
    | some size => exact ⟨_, rfl⟩

theorem strategy_frame_len {K V : Type} [DecidableEq K] {s : MultiTrie K V} {nid : Nat}
    {head : AnnKey K} {rest : TrieKey K} {frames : List (Nat × TrieKey K)}
    (h : get_exploring_strategy s nid (head :: rest) = some frames) :
    ∀ fr ∈ frames, fr.2.length ≤ rest.length := by
  intro fr hfr
  obtain ⟨hkey, hps⟩ := head
  cases hkey with
  | Exact a =>
    simp only [get_exploring_strategy] at h
    injection h with h
    subst h
    simp only [List.mem_append, Option.mem_toList, Option.mem_def,
      Option.map_eq_some'] at hfr
    rcases hfr with ⟨c, _, hc⟩ | ⟨c, _, hc⟩ <;> subst hc <;> simp
  | RightPar =>
    simp only [get_exploring_strategy] at h
    injection h with h
    subst h
    simp only [Option.mem_toList, Option.mem_def, Option.map_eq_some'] at hfr
    rcases hfr with ⟨c, _, hc⟩
    subst hc
    simp
  | LeftPar =>
    cases hps with
    | none => cases h
    | some size =>
      simp only [get_exploring_strategy] at h
      injection h with h
      subst h
      simp only [List.mem_append, Option.mem_toList, Option.mem_def,
        Option.map_eq_some'] at hfr
      rcases hfr with ⟨c, _, hc⟩ | ⟨c, _, hc⟩ <;> subst hc <;> simp
  | Wildcard =>
    simp only [get_exploring_strategy] at h
    injection h with h
    subst h
    simp only [List.mem_append, List.mem_map] at hfr
    rcases hfr with ⟨p, _, hp⟩ | ⟨c, _, hc⟩
    · subst hp
      simp
    · subst hc
      simp

theorem strategy_frame_KeyTotal {K V : Type} [DecidableEq K] {s : MultiTrie K V} {nid : Nat}
    {head : AnnKey K} {rest : TrieKey K} {frames : List (Nat × TrieKey K)}
    (h : get_exploring_strategy s nid (head :: rest) = some frames)
    (hk : KeyTotal (head :: rest)) : ∀ fr ∈ frames, KeyTotal fr.2 := by
  have hrest : KeyTotal rest := KeyTotal_tail hk
  intro fr hfr
  obtain ⟨hkey, hps⟩ := head
  cases hkey with
  | Exact a =>
    simp only [get_exploring_strategy] at h
    injection h with h
    subst h
    simp only [List.mem_append, Option.mem_toList, Option.mem_def,
      Option.map_eq_some'] at hfr
    rcases hfr with ⟨c, _, hc⟩ | ⟨c, _, hc⟩ <;> subst hc <;> exact hrest
  | RightPar =>
    simp only [get_exploring_strategy] at h
    injection h with h
    subst h
    simp only [Option.mem_toList, Option.mem_def, Option.map_eq_some'] at hfr
    rcases hfr with ⟨c, _, hc⟩
    subst hc
    exact hrest
  | LeftPar =>
    cases hps with
    | none => cases h
    | some size =>
      simp only [get_exploring_strategy] at h
      injection h with h
      subst h
      simp only [List.mem_append, Option.mem_toList, Option.mem_def,
        Option.map_eq_some'] at hfr
      rcases hfr with ⟨c, _, hc⟩ | ⟨c, _, hc⟩ <;> subst hc
      · exact KeyTotal_drop hrest size
      · exact hrest
  | Wildcard =>
    simp only [get_exploring_strategy] at h
    injection h with h
    subst h
    simp only [List.mem_append, List.mem_map] at hfr
    rcases hfr with ⟨p, _, hp⟩ | ⟨c, _, hc⟩
    · subst hp
      exact hrest
    · subst hc
      exact hrest

end Multitrie

namespace Multitrie

/-- The identity branch: when the node has a child labelled with the raw variant of
the head, the strategy pushes the frame following that child with the rest of the
key (for every head shape). -/
theorem strategy_mem_label {K V : Type} [DecidableEq K] {s : MultiTrie K V} {nid : Nat}
    {head : AnnKey K} {rest : TrieKey K} {frames : List (Nat × TrieKey K)} {c : Nat}
    (h : get_exploring_strategy s nid (head :: rest) = some frames)
    (hc : lookupChild (getNode s nid).children head.key = some c) :
    (c, rest) ∈ frames := by
  obtain ⟨hkey, hps⟩ := head
  cases hkey with
  | Exact a =>
    have hc' : lookupChild (getNode s nid).children (NodeKey.Exact a) = some c := hc
    simp only [get_exploring_strategy] at h
    injection h with h
    subst h
    rw [hc']
    simp
  | RightPar =>
    have hc' : lookupChild (getNode s nid).children NodeKey.RightPar = some c := hc
    simp only [get_exploring_strategy] at h
    injection h with h
    subst h
    rw [hc']
    simp
  | LeftPar =>
    cases hps with
    | none => cases h
    | some size =>
      have hc' : lookupChild (getNode s nid).children NodeKey.LeftPar = some c := hc
      simp only [get_exploring_strategy] at h
      injection h with h
      subst h
      rw [hc']
      simp
  | Wildcard =>
    have hc' : lookupChild (getNode s nid).children NodeKey.Wildcard = some c := hc
    simp only [get_exploring_strategy] at h
    injection h with h
    subst h
    apply List.mem_append_left
    apply List.mem_map.mpr
    refine ⟨(NodeKey.Wildcard, c), ?_, rfl⟩
    apply List.mem_filter.mpr
    refine ⟨lookupChild_mem hc', ?_⟩
    simp [NodeKey.is_parenthesis]

/-! ### Explorer toolkit -/

theorem exploreB_nil {K V : Type} [DecidableEq K] (s : MultiTrie K V) (fuel nid : Nat) :
    exploreB s fuel nid [] = some [nid] := by
  cases fuel <;> rfl

theorem exploreB_cons {K V : Type} [DecidableEq K] (s : MultiTrie K V) (fuel nid : Nat)
    (head : AnnKey K) (rest : TrieKey K) :
    exploreB s (fuel + 1) nid (head :: rest) =
      match get_exploring_strategy s nid (head :: rest) with
      | none => none
      | some frames => exploreFramesWith (exploreB s fuel) frames := rfl

theorem exploreFramesWith_congr {K : Type} {f g : Nat → TrieKey K → Option (List Nat)} :
    ∀ {l : List (Nat × TrieKey K)}, (∀ fr ∈ l, f fr.1 fr.2 = g fr.1 fr.2) →
      exploreFramesWith f l = exploreFramesWith g l := by
  intro l
  induction l with
  | nil => intro _; rfl
  | cons fr rest ih =>
    intro h
    obtain ⟨c, k⟩ := fr
    simp only [exploreFramesWith]
    rw [h (c, k) (List.mem_cons_self _ _),
      ih (fun fr hfr => h fr (List.mem_cons_of_mem _ hfr))]

theorem exploreB_fuel_eq {K V : Type} [DecidableEq K] (s : MultiTrie K V) :
    ∀ (fuel fuel' nid : Nat) (key : TrieKey K), key.length ≤ fuel → key.length ≤ fuel' →
      exploreB s fuel nid key = exploreB s fuel' nid key := by
  intro fuel
  induction fuel with
  | zero =>
    intro fuel' nid key h _
    have h0 : key = [] := List.eq_nil_of_length_eq_zero (Nat.le_zero.mp h)
    subst h0
    rw [exploreB_nil, exploreB_nil]
  | succ fuel ih =>
    intro fuel' nid key h h'
    cases key with
    | nil => rw [exploreB_nil, exploreB_nil]
    | cons head rest =>
      cases fuel' with
      | zero => simp at h'
      | succ fuel' =>
        rw [exploreB_cons, exploreB_cons]
        cases hst : get_exploring_strategy s nid (head :: rest) with
        | none => rfl
        | some frames =>
          simp only []
          apply exploreFramesWith_congr
          intro fr hfr
          have hlen := strategy_frame_len hst fr hfr
          simp only [List.length_cons] at h h'
          exact ih fuel' fr.1 fr.2 (by omega) (by omega)

theorem exploreFramesWith_eq_some {K : Type} {f : Nat → TrieKey K → Option (List Nat)} :
    ∀ {l : List (Nat × TrieKey K)} {L : List Nat}, exploreFramesWith f l = some L →
      (∀ fr ∈ l, ∃ lf, f fr.1 fr.2 = some lf) ∧
      (∀ x, x ∈ L ↔ ∃ fr ∈ l, ∃ lf, f fr.1 fr.2 = some lf ∧ x ∈ lf) := by
  intro l
  induction l with
  | nil =>
    intro L h
    simp only [exploreFramesWith] at h
    injection h with h
    subst h
    constructor
    · intro fr hfr
      simp at hfr
    · intro x
      simp
  | cons fr rest ih =>
    intro L h
    obtain ⟨c, k⟩ := fr
    simp only [exploreFramesWith] at h
    cases hf : f c k with
    | none => rw [hf] at h; simp at h
    | some lf =>
      rw [hf] at h
      cases hrest : exploreFramesWith f rest with
      | none => rw [hrest] at h; simp at h
      | some Lr =>
        rw [hrest] at h
        simp only [Option.bind_eq_bind, Option.some_bind] at h
        injection h with h
        subst h
        obtain ⟨ih1, ih2⟩ := ih hrest
        constructor
        · intro fr2 hfr2
          rcases List.mem_cons.mp hfr2 with h2 | h2
          · subst h2
            exact ⟨lf, hf⟩
          · exact ih1 fr2 h2
        · intro x
          simp only [List.mem_append]
          constructor
          · intro hx
            rcases hx with hx | hx
            · exact ⟨(c, k), List.mem_cons_self _ _, lf, hf, hx⟩
            · rcases (ih2 x).mp hx with ⟨fr2, hm, lf2, hf2, hx2⟩
              exact ⟨fr2, List.mem_cons_of_mem _ hm, lf2, hf2, hx2⟩
          · rintro ⟨fr2, hm, lf2, hf2, hx2⟩
            rcases List.mem_cons.mp hm with h2 | h2
            · subst h2
              rw [hf] at hf2
              injection hf2 with hf2
              subst hf2
              exact Or.inl hx2
            · exact Or.inr ((ih2 x).mpr ⟨fr2, h2, lf2, hf2, hx2⟩)

theorem exploreFramesWith_isSome {K : Type} {f : Nat → TrieKey K → Option (List Nat)} :
    ∀ {l : List (Nat × TrieKey K)}, (∀ fr ∈ l, ∃ lf, f fr.1 fr.2 = some lf) →
      ∃ L, exploreFramesWith f l = some L := by
  intro l
  induction l with
  | nil => intro _; exact ⟨[], rfl⟩
  | cons fr rest ih =>
    intro h
    obtain ⟨c, k⟩ := fr
    obtain ⟨lf, hf⟩ := h (c, k) (List.mem_cons_self _ _)
    obtain ⟨Lr, hrest⟩ := ih (fun fr hfr => h fr (List.mem_cons_of_mem _ hfr))
    refine ⟨lf ++ Lr, ?_⟩
    simp only [exploreFramesWith]
    rw [hf, hrest]
    rfl

theorem exploreB_some_of_KeyTotal {K V : Type} [DecidableEq K] (s : MultiTrie K V) :
    ∀ (fuel nid : Nat) (key : TrieKey K), KeyTotal key → key.length ≤ fuel →
      ∃ L, exploreB s fuel nid key = some L := by
  intro fuel
  induction fuel with
  | zero =>
    intro nid key _ h
    have h0 : key = [] := List.eq_nil_of_length_eq_zero (Nat.le_zero.mp h)
    subst h0
    exact ⟨[nid], exploreB_nil s 0 nid⟩
  | succ fuel ih =>
    intro nid key hk hfuel
    cases key with
    | nil => exact ⟨[nid], exploreB_nil s _ nid⟩
    | cons head rest =>
      obtain ⟨frames, hst⟩ := strategy_some_of_KeyTotal s nid hk
      rw [exploreB_cons, hst]
      apply exploreFramesWith_isSome
      intro fr hfr
      simp only [List.length_cons] at hfuel
      exact ih fr.1 fr.2 (strategy_frame_KeyTotal hst hk fr hfr)
        (le_trans (strategy_frame_len hst fr hfr) (by omega))

end Multitrie

namespace Multitrie

/-! ### Branch-list lemmas for `remove` -/

theorem branches_some_of_KeyTotal {K V : Type} [DecidableEq K] (s : MultiTrie K V)
    (nid : Nat) {head : AnnKey K} {rest : TrieKey K} (hk : KeyTotal (head :: rest)) :
    ∃ bs, childBranches s nid (head :: rest) = some bs := by
  obtain ⟨frames, hst⟩ := strategy_some_of_KeyTotal s nid hk
  rw [strategy_eq_branches] at hst
  rcases Option.map_eq_some'.mp hst with ⟨bs, hbs, _⟩
  exact ⟨bs, hbs⟩

theorem branch_mem_frames {K V : Type} [DecidableEq K] {s : MultiTrie K V} {nid : Nat}
    {key : TrieKey K} {bs : List (Option (NodeKey K) × Nat × TrieKey K)}
    (h : childBranches s nid key = some bs) :
    get_exploring_strategy s nid key = some (bs.map (fun b => b.2)) := by
  rw [strategy_eq_branches, h]
  rfl

theorem branch_key_len {K V : Type} [DecidableEq K] {s : MultiTrie K V} {nid : Nat}
    {head : AnnKey K} {rest : TrieKey K} {bs : List (Option (NodeKey K) × Nat × TrieKey K)}
    (h : childBranches s nid (head :: rest) = some bs) :
    ∀ b ∈ bs, b.2.2.length ≤ rest.length := by
  intro b hb
  have hst := branch_mem_frames h
  have hmem : b.2 ∈ bs.map (fun b => b.2) := List.mem_map_of_mem _ hb
  exact strategy_frame_len hst b.2 hmem

theorem branch_KeyTotal {K V : Type} [DecidableEq K] {s : MultiTrie K V} {nid : Nat}
    {head : AnnKey K} {rest : TrieKey K} {bs : List (Option (NodeKey K) × Nat × TrieKey K)}
    (h : childBranches s nid (head :: rest) = some bs) (hk : KeyTotal (head :: rest)) :
    ∀ b ∈ bs, KeyTotal b.2.2 := by
  intro b hb
  have hst := branch_mem_frames h
  have hmem : b.2 ∈ bs.map (fun b => b.2) := List.mem_map_of_mem _ hb
  exact strategy_frame_KeyTotal hst hk b.2 hmem

/-! ### Remove unfolding and totality -/

theorem removeB_nil {K V : Type} [DecidableEq K] [DecidableEq V] (v : V) (fuel : Nat)
    (s : MultiTrie K V) (nid : Nat) :
    removeB v fuel s nid [] =
      some (decide (v ∈ (getNode s nid).values),
        setNode s nid { getNode s nid with values := eraseFirst (getNode s nid).values v }) := by
  cases fuel <;> rfl

theorem removeB_cons {K V : Type} [DecidableEq K] [DecidableEq V] (v : V) (fuel : Nat)
    (s : MultiTrie K V) (nid : Nat) (head : AnnKey K) (rest : TrieKey K) :
    removeB v (fuel + 1) s nid (head :: rest) =
      match childBranches s nid (head :: rest) with
      | none => none
      | some branches => removeBranchesWith (removeB v fuel) nid branches s := rfl

theorem removeBranchesWith_congr {K V : Type} [DecidableEq K]
    {f g : MultiTrie K V → Nat → TrieKey K → Option (Bool × MultiTrie K V)} {nid : Nat} :
    ∀ {l : List (Option (NodeKey K) × Nat × TrieKey K)},
      (∀ b ∈ l, ∀ s, f s b.2.1 b.2.2 = g s b.2.1 b.2.2) →
      ∀ s, removeBranchesWith f nid l s = removeBranchesWith g nid l s := by
  intro l
  induction l with
  | nil => intro _ s; rfl
  | cons b rest ih =>
    intro h s
    obtain ⟨lbl, c, k⟩ := b
    simp only [removeBranchesWith]
    rw [h (lbl, c, k) (List.mem_cons_self _ _)]
    cases hg : g s c k with
    | none => rfl
    | some r1 =>
      simp only [Option.bind_eq_bind, Option.some_bind]
      rw [ih (fun b hb => h b (List.mem_cons_of_mem _ hb))]

theorem removeB_fuel_eq {K V : Type} [DecidableEq K] [DecidableEq V] (v : V) :
    ∀ (fuel fuel' : Nat) (s : MultiTrie K V) (nid : Nat) (key : TrieKey K),
      key.length ≤ fuel → key.length ≤ fuel' →
      removeB v fuel s nid key = removeB v fuel' s nid key := by
  intro fuel
  induction fuel with
  | zero =>
    intro fuel' s nid key h _
    have h0 : key = [] := List.eq_nil_of_length_eq_zero (Nat.le_zero.mp h)
    subst h0
    rw [removeB_nil, removeB_nil]
  | succ fuel ih =>
    intro fuel' s nid key h h'
    cases key with
    | nil => rw [removeB_nil, removeB_nil]
    | cons head rest =>
      cases fuel' with
      | zero => simp at h'
      | succ fuel' =>
        rw [removeB_cons, removeB_cons]
        cases hbs : childBranches s nid (head :: rest) with
        | none => rfl
        | some bs =>
          simp only []
          apply removeBranchesWith_congr
          intro b hb t
          have hlen := branch_key_len hbs b hb
          simp only [List.length_cons] at h h'
          exact ih fuel' t b.2.1 b.2.2 (by omega) (by omega)

theorem removeBranchesWith_some {K V : Type} [DecidableEq K]
    {f : MultiTrie K V → Nat → TrieKey K → Option (Bool × MultiTrie K V)} {nid : Nat} :
    ∀ {l : List (Option (NodeKey K) × Nat × TrieKey K)},
      (∀ b ∈ l, ∀ s, ∃ r, f s b.2.1 b.2.2 = some r) →
      ∀ s, ∃ r, removeBranchesWith f nid l s = some r := by
  intro l
  induction l with
  | nil => intro _ s; exact ⟨(false, s), rfl⟩
  | cons b rest ih =>
    intro h s
    obtain ⟨lbl, c, k⟩ := b
    obtain ⟨r1, hr1⟩ := h (lbl, c, k) (List.mem_cons_self _ _) s
    obtain ⟨r2, hr2⟩ := ih (fun b hb => h b (List.mem_cons_of_mem _ hb))
      (removeStep r1.2 nid lbl c r1.1)
    refine ⟨(r1.1 || r2.1, r2.2), ?_⟩
    simp only [removeBranchesWith]
    rw [hr1]
    simp only [Option.bind_eq_bind, Option.some_bind]
    rw [hr2]
    rfl

theorem removeB_some_of_KeyTotal {K V : Type} [DecidableEq K] [DecidableEq V] (v : V) :
    ∀ (fuel : Nat) (s : MultiTrie K V) (nid : Nat) (key : TrieKey K), KeyTotal key →
      key.length ≤ fuel → ∃ r, removeB v fuel s nid key = some r := by
  intro fuel
  induction fuel with
  | zero =>
    intro s nid key _ h
    have h0 : key = [] := List.eq_nil_of_length_eq_zero (Nat.le_zero.mp h)
    subst h0
    exact ⟨_, removeB_nil v 0 s nid⟩
  | succ fuel ih =>
    intro s nid key hk hfuel
    cases key with
    | nil => exact ⟨_, removeB_nil v _ s nid⟩
    | cons head rest =>
      obtain ⟨bs, hbs⟩ := branches_some_of_KeyTotal s nid hk
      rw [removeB_cons, hbs]
      apply removeBranchesWith_some
      intro b hb t
      simp only [List.length_cons] at hfuel
      exact ih t b.2.1 b.2.2 (branch_KeyTotal hbs hk b hb)
        (le_trans (branch_key_len hbs b hb) (by omega))

/-! ### The walk of `add` -/

theorem addDescend_pars {K V : Type} [DecidableEq K] [DecidableEq V] :
    ∀ (key : TrieKey K) (s : MultiTrie K V) (cur pos : Nat) (ns : List Nat)
      (ps : List (Nat × Nat)) (v : V),
      (addDescend s cur key pos ns ps v).2.2 = ps ++ parsOf key pos := by
  intro key
  induction key with
  | nil => intro s cur pos ns ps v; simp [addDescend, parsOf]
  | cons head rest ih =>
    intro s cur pos ns ps v
    obtain ⟨hkey, hps⟩ := head
    cases hkey with
    | Exact a => simp [addDescend, parsOf, ih]
    | Wildcard => simp [addDescend, parsOf, ih]
    | RightPar => simp [addDescend, parsOf, ih]
    | LeftPar =>
      cases hps with
      | none => simp [addDescend, parsOf, ih]
      | some size => simp [addDescend, parsOf, ih]

theorem addDescend_nodes {K V : Type} [DecidableEq K] [DecidableEq V] :
    ∀ (key : TrieKey K) (s : MultiTrie K V) (cur pos : Nat) (ns : List Nat)
      (ps : List (Nat × Nat)) (v : V),
      ∃ ids, (addDescend s cur key pos ns ps v).2.1 = ns ++ ids ∧ ids.length = key.length := by
  intro key
  induction key with
  | nil => intro s cur pos ns ps v; exact ⟨[], by simp [addDescend], rfl⟩
  | cons head rest ih =>
    intro s cur pos ns ps v
    obtain ⟨hkey, hps⟩ := head
    have step :
        ∀ (s1 : MultiTrie K V) (c : Nat) (ps1 : List (Nat × Nat)),
          ∃ ids, (addDescend s1 c rest (pos + 1) (ns ++ [c]) ps1 v).2.1 =
            ns ++ ids ∧ ids.length = rest.length + 1 := by
      intro s1 c ps1
      obtain ⟨ids, h1, h2⟩ := ih s1 c (pos + 1) (ns ++ [c]) ps1 v
      exact ⟨c :: ids, by simpa using h1, by simp [h2]⟩
    cases hkey with
    | Exact a => simpa [addDescend] using step _ _ _
    | Wildcard => simpa [addDescend] using step _ _ _
    | RightPar => simpa [addDescend] using step _ _ _
    | LeftPar =>
      cases hps with
      | none => simpa [addDescend] using step _ _ _
      | some size => simpa [addDescend] using step _ _ _

theorem mem_parsOf {T : Type} :
    ∀ {key : TrieKey T} {pos : Nat} {q : Nat × Nat}, q ∈ parsOf key pos →
      ∃ i sz, key[i]? = some { key := NodeKey.LeftPar, par_size := some sz } ∧
        q = (pos + i, pos + i + sz + 1) := by
  intro key
  induction key with
  | nil => intro pos q h; simp [parsOf] at h
  | cons head rest ih =>
    intro pos q h
    obtain ⟨hkey, hps⟩ := head
    have htail : q ∈ parsOf rest (pos + 1) →
        ∃ i sz, ((⟨hkey, hps⟩ : AnnKey T) :: rest)[i]? =
          some { key := NodeKey.LeftPar, par_size := some sz } ∧
          q = (pos + i, pos + i + sz + 1) := by
      intro hmem
      obtain ⟨i, sz, h1, h2⟩ := ih hmem
      refine ⟨i + 1, sz, by simpa using h1, by rw [h2]; congr 1 <;> omega⟩
    cases hkey with
    | Exact a => exact htail (by simpa [parsOf] using h)
    | Wildcard => exact htail (by simpa [parsOf] using h)
    | RightPar => exact htail (by simpa [parsOf] using h)
    | LeftPar =>
      cases hps with
      | none => exact htail (by simpa [parsOf] using h)
      | some size =>
        simp only [parsOf, List.mem_append, List.mem_singleton] at h
        rcases h with h | h
        · exact ⟨0, size, by simp, by simp [h]⟩
        · exact htail h

theorem parsOf_mem {T : Type} :
    ∀ {key : TrieKey T} {pos i sz : Nat},
      key[i]? = some { key := NodeKey.LeftPar, par_size := some sz } →
      (pos + i, pos + i + sz + 1) ∈ parsOf key pos := by
  intro key
  induction key with
  | nil => intro pos i sz h; simp at h
  | cons head rest ih =>
    intro pos i sz h
    obtain ⟨hkey, hps⟩ := head
    cases i with
    | zero =>
      simp at h
      obtain ⟨h1, h2⟩ := h
      subst h1
      subst h2
      simp [parsOf]
    | succ i =>
      simp only [List.getElem?_cons_succ] at h
      have hmem : (pos + 1 + i, pos + 1 + i + sz + 1) ∈ parsOf rest (pos + 1) := ih h
      have harith : (pos + 1 + i, pos + 1 + i + sz + 1) = (pos + (i + 1), pos + (i + 1) + sz + 1) := by
        congr 1 <;> omega
      rw [harith] at hmem
      cases hkey with
      | Exact a => simpa [parsOf] using hmem
      | Wildcard => simpa [parsOf] using hmem
      | RightPar => simpa [parsOf] using hmem
      | LeftPar =>
        cases hps with
        | none => simpa [parsOf] using hmem
        | some size =>
          simp only [parsOf]
          exact List.mem_append_right _ hmem

end Multitrie

namespace Multitrie

theorem addPars_some {K V : Type} [DecidableEq K] :
    ∀ (ps : List (Nat × Nat)) (s : MultiTrie K V) (ns : List Nat),
      (∀ q ∈ ps, q.2 - 1 < ns.length ∧ (0 < q.1 → q.1 - 1 < ns.length)) →
      ∃ s', addPars s ns ps = some s' := by
  intro ps
  induction ps with
  | nil => intro s ns _; exact ⟨s, rfl⟩
  | cons q ps ih =>
    intro s ns h
    obtain ⟨start, stop⟩ := q
    obtain ⟨h1, h2⟩ := h (start, stop) (List.mem_cons_self _ _)
    obtain ⟨endN, hend⟩ : ∃ e, ns[stop - 1]? = some e := ⟨_, List.getElem?_eq_getElem h1⟩
    simp only [addPars]
    rw [hend]
    simp only [Option.bind_eq_bind, Option.some_bind]
    by_cases hs : start > 0
    · obtain ⟨startN, hstart⟩ : ∃ e, ns[start - 1]? = some e :=
        ⟨_, List.getElem?_eq_getElem (h2 hs)⟩
      rw [if_pos hs, hstart]
      simp only [Option.bind_eq_bind, Option.some_bind]
      exact ih _ ns (fun q hq => h q (List.mem_cons_of_mem _ hq))
    · rw [if_neg hs]
      exact ih _ ns (fun q hq => h q (List.mem_cons_of_mem _ hq))

theorem add_some {K V : Type} [DecidableEq K] [DecidableEq V] {ts : List (NodeKey K)}
    {k : TrieKey K} (h : precalculate_par_sizes ts = Except.ok k) (s : MultiTrie K V)
    (v : V) : ∃ s', add s k v = some s' := by
  cases hk : k with
  | nil => exact ⟨_, rfl⟩
  | cons head rest =>
    simp only [add]
    obtain ⟨ids, hids, hlen⟩ := addDescend_nodes (head :: rest) s 0 0 [] [] v
    apply addPars_some
    intro q hq
    rw [addDescend_pars] at hq
    simp only [List.nil_append] at hq
    obtain ⟨i, sz, hi, hq2⟩ := mem_parsOf hq
    subst hq2
    have hi' : k[i]? = some { key := NodeKey.LeftPar, par_size := some sz } := by
      rw [hk]
      exact hi
    have hilt : i < k.length := (List.getElem?_eq_some_iff.mp hi').1
    have hbound : i + sz < k.length := precalc_spans_lt h hi' rfl
    rw [hids]
    rw [hk] at hbound hilt
    constructor
    · simp only [List.length_append, List.length_nil, hlen]
      omega
    · intro _
      simp only [List.length_append, List.length_nil, hlen]
      omega

/-- C8: on any key built by `from_list`, the operations `add`, `get` and `remove`
are total and infallible: neither the abort of `pop_head_unchecked` nor the
`unwrap` of a `LeftPar` span is ever reached (the model never answers `none`). -/
theorem claim_C8_no_panics {K V : Type} [DecidableEq K] [DecidableEq V]
    {ts : List (NodeKey K)} {k : TrieKey K} (h : precalculate_par_sizes ts = Except.ok k)
    (s : MultiTrie K V) (v : V) (nid : Nat) :
    (∃ s', add s k v = some s') ∧ (∃ l, getValues s nid k = some l) ∧
    (∃ r, remove s k v = some r) := by
  have hkt : KeyTotal k := (precalc_ok_props h).2.1
  refine ⟨add_some h s v, ?_, ?_⟩
  · obtain ⟨L, hL⟩ := exploreB_some_of_KeyTotal s k.length nid k hkt (le_refl _)
    exact ⟨L.flatMap fun n => (getNode s n).values, by simp [getValues, exploreNodes, hL]⟩
  · exact removeB_some_of_KeyTotal v k.length s 0 k hkt (le_refl _)

/-- Witness for C8: the key `( )` with the empty trie. -/
theorem claim_C8_witness :
    precalculate_par_sizes [NodeKey.LeftPar, (NodeKey.RightPar : NodeKey Nat)] =
      Except.ok keyParPair ∧
    ((∃ s', add (MultiTrie.new : MultiTrie Nat Nat) keyParPair 0 = some s') ∧
     (∃ l, getValues (MultiTrie.new : MultiTrie Nat Nat) 0 keyParPair = some l) ∧
     (∃ r, remove (MultiTrie.new : MultiTrie Nat Nat) keyParPair 0 = some r)) :=
  ⟨rfl, @claim_C8_no_panics Nat Nat _ _ [NodeKey.LeftPar, NodeKey.RightPar] keyParPair rfl
    MultiTrie.new 0 0⟩

/-- C3 fails on the code: adding the multiset `{(( ), 0), ((*), 0)}` to the empty
trie and removing exactly the same multiset (wildcard first) leaves a node count
of 3, not 1: the wildcard removal reaches the node after `)` through the root's
skip-par edge and deletes only the skip-par entry, so the labelled chain of now
empty nodes is never pruned, and the second removal returns `false` and prunes
nothing. -/
theorem claim_C3_remove_leaves_nodes : removeUndoScenario = some (true, false, 3) := by
  decide

/-- C4's counterexample: after adding `( ( ) )` and removing it again, the root's
children map is empty — the edge to the node after the outer `(` was deleted —
although that node still carries a skip-par entry (to node 3), because
`is_empty` does not consult `skip_pars`. -/
theorem claim_C4_counterexample : pruneScenario = some ([], [3]) := by decide

/-- C5's counterexample: with `7` stored under both `Exact 0` and the wildcard,
`get (Exact 0)` yields `7` twice, and `remove (Exact 0, 7)` removes both reachable
occurrences: afterwards `get (Exact 0)` yields `7` zero times, not once fewer. -/
theorem claim_C5_counterexample : occurrenceScenario = some (2, true, 0) := by decide

/-- C7's counterexample: `keyExact01 = Exact 0, Exact 1` is a nonempty well-formed
key beginning with a single non-paren token, yet after `add (*, 7)` the query
yields nothing: the wildcard child consumes only the first token and the walk then
dies. -/
theorem claim_C7_counterexample :
    precalculate_par_sizes [NodeKey.Exact 0, NodeKey.Exact 1] = Except.ok keyExact01 ∧
    wildcardMissScenario = some [] := ⟨rfl, by decide⟩

end Multitrie

namespace Multitrie

/-! ### Store primitives -/

theorem getNode_eq {K V : Type} (s : MultiTrie K V) (nid : Nat) :
    getNode s nid = (s.nodes[nid]?).getD emptyNode := by
  simp [getNode, List.getD_eq_getElem?_getD]

theorem setNode_length {K V : Type} (s : MultiTrie K V) (nid : Nat) (n : MultiTrieNode K V) :
    (setNode s nid n).nodes.length = s.nodes.length := by
  simp [setNode]

theorem getNode_setNode_same {K V : Type} {s : MultiTrie K V} {nid : Nat}
    (n : MultiTrieNode K V) (h : nid < s.nodes.length) :
    getNode (setNode s nid n) nid = n := by
  simp [getNode_eq, setNode, List.getElem?_set_self, h]

theorem getNode_setNode_other {K V : Type} {s : MultiTrie K V} {nid m : Nat}
    (n : MultiTrieNode K V) (h : m ≠ nid) :
    getNode (setNode s nid n) m = getNode s m := by
  simp [getNode_eq, setNode, List.getElem?_set_ne (Ne.symm h)]

theorem getNode_grow {K V : Type} (s : MultiTrie K V) (nid : Nat) :
    getNode { nodes := s.nodes ++ [emptyNode] } nid = getNode s nid := by
  rcases Nat.lt_trichotomy nid s.nodes.length with h | h | h
  · simp [getNode_eq, List.getElem?_append_left h]
  · subst h
    simp [getNode_eq, List.getElem?_concat_length, List.getElem?_eq_none (le_refl _)]
  · rw [getNode_eq, getNode_eq, List.getElem?_eq_none (by simp; omega),
      List.getElem?_eq_none (by omega)]

theorem emptyNode_NodeWF {K V : Type} (len : Nat) : NodeWF len (emptyNode : MultiTrieNode K V) := by
  refine ⟨?_, ?_, ?_, ?_, ?_⟩ <;> simp [emptyNode]

theorem WF_getNode {K V : Type} {s : MultiTrie K V} (h : WF s) (nid : Nat) :
    NodeWF s.nodes.length (getNode s nid) := by
  rcases Nat.lt_or_ge nid s.nodes.length with hlt | hge
  · have heq : getNode s nid = s.nodes[nid] := by
      simp [getNode_eq, List.getElem?_eq_getElem hlt]
    rw [heq]
    exact h.2 _ (List.getElem_mem hlt)
  · have heq : getNode s nid = emptyNode := by
      simp [getNode_eq, List.getElem?_eq_none hge]
    rw [heq]
    exact emptyNode_NodeWF _

theorem WF_iff {K V : Type} (s : MultiTrie K V) :
    WF s ↔ (0 < s.nodes.length ∧ ∀ nid, NodeWF s.nodes.length (getNode s nid)) := by
  constructor
  · intro h
    exact ⟨h.1, WF_getNode h⟩
  · intro h
    refine ⟨h.1, ?_⟩
    intro n hn
    rcases List.mem_iff_getElem.mp hn with ⟨i, hi, hget⟩
    have heq : getNode s i = n := by
      simp [getNode_eq, List.getElem?_eq_getElem hi, hget]
    rw [← heq]
    exact h.2 i

/-! ### Small container lemmas -/

theorem insertValue_mem_self {V : Type} [DecidableEq V] (l : List V) (v : V) :
    v ∈ insertValue l v := by
  unfold insertValue
  by_cases h : v ∈ l <;> simp [h]

theorem insertValue_mem_of {V : Type} [DecidableEq V] {l : List V} {w : V} (v : V)
    (h : w ∈ l) : w ∈ insertValue l v := by
  unfold insertValue
  by_cases hv : v ∈ l <;> simp [hv, h]

theorem mem_insertValue_iff {V : Type} [DecidableEq V] {l : List V} {v w : V} :
    w ∈ insertValue l v ↔ w = v ∨ w ∈ l := by
  unfold insertValue
  by_cases hv : v ∈ l
  · simp only [if_pos hv]
    constructor
    · exact Or.inr
    · rintro (rfl | h)
      · exact hv
      · exact h
  · simp [if_neg hv, or_comm]

theorem insertValue_nodup {V : Type} [DecidableEq V] {l : List V} (h : l.Nodup) (v : V) :
    (insertValue l v).Nodup := by
  unfold insertValue
  by_cases hv : v ∈ l
  · simpa [hv]
  · rw [if_neg hv, List.nodup_append]
    exact ⟨h, List.nodup_singleton v, by simpa using hv⟩

theorem insertSkip_mem_self (l : List Nat) (c : Nat) : c ∈ insertSkip l c := by
  unfold insertSkip
  by_cases h : c ∈ l <;> simp [h]

theorem insertSkip_mem_of {l : List Nat} {d : Nat} (c : Nat) (h : d ∈ l) :
    d ∈ insertSkip l c := by
  unfold insertSkip
  by_cases hc : c ∈ l <;> simp [hc, h]

theorem insertSkip_nodup {l : List Nat} (h : l.Nodup) (c : Nat) : (insertSkip l c).Nodup := by
  unfold insertSkip
  by_cases hc : c ∈ l
  · simpa [hc]
  · rw [if_neg hc, List.nodup_append]
    exact ⟨h, List.nodup_singleton c, by simpa using hc⟩

theorem mem_insertSkip_iff {l : List Nat} {c d : Nat} :
    d ∈ insertSkip l c ↔ d = c ∨ d ∈ l := by
  unfold insertSkip
  by_cases hc : c ∈ l
  · simp only [if_pos hc]
    constructor
    · exact Or.inr
    · rintro (rfl | h)
      · exact hc
      · exact h
  · simp [if_neg hc, or_comm]

theorem lookupChild_append_none {K : Type} [DecidableEq K]
    {l : List (NodeKey K × Nat)} {k : NodeKey K} (h : lookupChild l k = none)
    (l2 : List (NodeKey K × Nat)) : lookupChild (l ++ l2) k = lookupChild l2 k := by
  induction l with
  | nil => rfl
  | cons p rest ih =>
    obtain ⟨l0, c0⟩ := p
    simp only [lookupChild] at h ⊢
    by_cases he : l0 = k
    · rw [if_pos he] at h
      cases h
    · rw [if_neg he] at h ⊢
      exact ih h

/-! ### `get_or_insert_child` -/

theorem getOrInsertChild_spec {K V : Type} [DecidableEq K] (s : MultiTrie K V) (nid : Nat)
    (k : NodeKey K) (hnid : nid < s.nodes.length) :
    s.nodes.length ≤ (getOrInsertChild s nid k).2.nodes.length ∧
    lookupChild (getNode (getOrInsertChild s nid k).2 nid).children k =
      some (getOrInsertChild s nid k).1 ∧
    (∀ m l c, lookupChild (getNode s m).children l = some c →
      lookupChild (getNode (getOrInsertChild s nid k).2 m).children l = some c) ∧
    (∀ m, (getNode (getOrInsertChild s nid k).2 m).values = (getNode s m).values) ∧
    (∀ m, (getNode (getOrInsertChild s nid k).2 m).skip_pars = (getNode s m).skip_pars) ∧
    (WF s → WF (getOrInsertChild s nid k).2 ∧
      (getOrInsertChild s nid k).1 < (getOrInsertChild s nid k).2.nodes.length) := by
  unfold getOrInsertChild
  cases hl : lookupChild (getNode s nid).children k with
  | some c =>
    exact ⟨le_refl _, hl, fun m l c h => h, fun m => rfl, fun m => rfl,
      fun hwf => ⟨hwf, (WF_getNode hwf nid).1 _ (lookupChild_mem hl)⟩⟩
  | none =>
    simp only []
    have hgrow : ∀ m, getNode { nodes := s.nodes ++ [emptyNode] } m = getNode s m :=
      getNode_grow s
    have hlen1 : ({ nodes := s.nodes ++ [emptyNode] } : MultiTrie K V).nodes.length =
        s.nodes.length + 1 := by simp
    have hnid1 : nid < ({ nodes := s.nodes ++ [emptyNode] } : MultiTrie K V).nodes.length := by
      simp
      omega
    have hset : ∀ m, getNode (setNode { nodes := s.nodes ++ [emptyNode] } nid
        { getNode { nodes := s.nodes ++ [emptyNode] } nid with
            children := (getNode { nodes := s.nodes ++ [emptyNode] } nid).children ++
              [(k, s.nodes.length)] }) m =
        if m = nid then
          { getNode s nid with children := (getNode s nid).children ++ [(k, s.nodes.length)] }
        else getNode s m := by
      intro m
      by_cases hm : m = nid
      · subst hm
        rw [if_pos rfl, getNode_setNode_same _ hnid1, hgrow]
      · rw [if_neg hm, getNode_setNode_other _ hm, hgrow]
    constructor
    · simp [setNode_length]
    constructor
    · rw [hset nid, if_pos rfl]
      simp only []
      rw [lookupChild_append_none hl]
      simp [lookupChild]
    constructor
    · intro m l c h
      rw [hset m]
      by_cases hm : m = nid
      · rw [if_pos hm]
        subst hm
        exact lookupChild_append_some h
      · rw [if_neg hm]
        exact h
    constructor
    · intro m
      rw [hset m]
      by_cases hm : m = nid
      · rw [if_pos hm]
        subst hm
        rfl
      · rw [if_neg hm]
    constructor
    · intro m
      rw [hset m]
      by_cases hm : m = nid
      · rw [if_pos hm]
        subst hm
        rfl
      · rw [if_neg hm]
    · intro hwf
      constructor
      · rw [WF_iff]
        constructor
        · simp [setNode_length]
        · intro m
          rw [setNode_length]
          rw [hset m]
          have hlen2 : ({ nodes := s.nodes ++ [emptyNode] } : MultiTrie K V).nodes.length =
              s.nodes.length + 1 := by simp
          rw [hlen2]
          by_cases hm : m = nid
          · rw [if_pos hm]
            obtain ⟨w1, w2, w3, w4, w5⟩ := WF_getNode hwf nid
            refine ⟨?_, ?_, ?_, ?_, ?_⟩
            · intro p hp
              simp only [List.mem_append, List.mem_singleton] at hp
              rcases hp with hp | hp
              · exact Nat.lt_succ_of_lt (w1 p hp)
              · subst hp
                simp
            · simp only [List.map_append]
              rw [List.nodup_append]
              refine ⟨w2, by simp, ?_⟩
              intro a ha
              simp only [List.map_cons, List.map_nil, List.mem_singleton]
              intro hk2
              subst hk2
              rcases List.mem_map.mp ha with ⟨p, hp, hpk⟩
              have := (lookupChild_none_iff.mp hl) p hp
              exact this hpk
            · intro cc hcc
              exact Nat.lt_succ_of_lt (w3 cc hcc)
            · exact w4
            · exact w5
          · rw [if_neg hm]
            obtain ⟨w1, w2, w3, w4, w5⟩ := WF_getNode hwf m
            exact ⟨fun p hp => Nat.lt_succ_of_lt (w1 p hp), w2,
              fun cc hcc => Nat.lt_succ_of_lt (w3 cc hcc), w4, w5⟩
      · simp [setNode_length]

end Multitrie

namespace Multitrie

theorem lastId_nil (cur : Nat) : lastId cur [] = cur := rfl

theorem lastId_cons (cur c : Nat) (ids : List Nat) : lastId cur (c :: ids) = lastId c ids := by
  cases ids with
  | nil => rfl
  | cons d ids => rfl

theorem addDescend_chain {K V : Type} [DecidableEq K] [DecidableEq V] :
    ∀ (key : TrieKey K) (s : MultiTrie K V) (cur pos : Nat) (ns : List Nat)
      (ps : List (Nat × Nat)) (v : V), WF s → cur < s.nodes.length →
      WF (addDescend s cur key pos ns ps v).1 ∧
      s.nodes.length ≤ (addDescend s cur key pos ns ps v).1.nodes.length ∧
      (∀ m l c, lookupChild (getNode s m).children l = some c →
        lookupChild (getNode (addDescend s cur key pos ns ps v).1 m).children l = some c) ∧
      (∀ m w, w ∈ (getNode s m).values →
        w ∈ (getNode (addDescend s cur key pos ns ps v).1 m).values) ∧
      (∀ m c, c ∈ (getNode s m).skip_pars →
        c ∈ (getNode (addDescend s cur key pos ns ps v).1 m).skip_pars) ∧
      ∃ ids, (addDescend s cur key pos ns ps v).2.1 = ns ++ ids ∧
        ChainOK (addDescend s cur key pos ns ps v).1 cur key ids ∧
        v ∈ (getNode (addDescend s cur key pos ns ps v).1 (lastId cur ids)).values ∧
        ∀ i ∈ ids, i < (addDescend s cur key pos ns ps v).1.nodes.length := by
  intro key
  induction key with
  | nil =>
    intro s cur pos ns ps v hwf hcur
    simp only [addDescend]
    have hget : ∀ m, getNode (setNode s cur
        { getNode s cur with values := insertValue (getNode s cur).values v }) m =
        if m = cur then { getNode s cur with values := insertValue (getNode s cur).values v }
        else getNode s m := by
      intro m
      by_cases hm : m = cur
      · subst hm
        rw [if_pos rfl, getNode_setNode_same _ hcur]
      · rw [if_neg hm, getNode_setNode_other _ hm]
    refine ⟨?_, by rw [setNode_length], ?_, ?_, ?_, ⟨[], by simp, rfl, ?_, by simp⟩⟩
    · rw [WF_iff]
      refine ⟨by rw [setNode_length]; exact hwf.1, ?_⟩
      intro m
      rw [setNode_length, hget m]
      obtain ⟨w1, w2, w3, w4, w5⟩ := WF_getNode hwf m
      by_cases hm : m = cur
      · rw [if_pos hm]
        obtain ⟨u1, u2, u3, u4, u5⟩ := WF_getNode hwf cur
        exact ⟨u1, u2, u3, u4, insertValue_nodup u5 v⟩
      · rw [if_neg hm]
        exact ⟨w1, w2, w3, w4, w5⟩
    · intro m l c h
      rw [hget m]
      by_cases hm : m = cur
      · rw [if_pos hm]
        subst hm
        exact h
      · rw [if_neg hm]
        exact h
    · intro m w h
      rw [hget m]
      by_cases hm : m = cur
      · rw [if_pos hm]
        subst hm
        exact insertValue_mem_of v h
      · rw [if_neg hm]
        exact h
    · intro m c h
      rw [hget m]
      by_cases hm : m = cur
      · rw [if_pos hm]
        subst hm
        exact h
      · rw [if_neg hm]
        exact h
    · rw [lastId_nil, hget cur, if_pos rfl]
      exact insertValue_mem_self _ v
  | cons head rest ih =>
    intro s cur pos ns ps v hwf hcur
    have spec := getOrInsertChild_spec s cur head.key hcur
    obtain ⟨sp1, sp2, sp3, sp4, sp5, sp6⟩ := spec
    obtain ⟨hwf1, hc1⟩ := sp6 hwf
    have step : ∀ ps1 : List (Nat × Nat),
        WF (addDescend (getOrInsertChild s cur head.key).2 (getOrInsertChild s cur head.key).1
          rest (pos + 1) (ns ++ [(getOrInsertChild s cur head.key).1]) ps1 v).1 ∧
        s.nodes.length ≤ (addDescend (getOrInsertChild s cur head.key).2
          (getOrInsertChild s cur head.key).1 rest (pos + 1)
          (ns ++ [(getOrInsertChild s cur head.key).1]) ps1 v).1.nodes.length ∧
        (∀ m l c, lookupChild (getNode s m).children l = some c →
          lookupChild (getNode (addDescend (getOrInsertChild s cur head.key).2
            (getOrInsertChild s cur head.key).1 rest (pos + 1)
            (ns ++ [(getOrInsertChild s cur head.key).1]) ps1 v).1 m).children l = some c) ∧
        (∀ m w, w ∈ (getNode s m).values →
          w ∈ (getNode (addDescend (getOrInsertChild s cur head.key).2
            (getOrInsertChild s cur head.key).1 rest (pos + 1)
            (ns ++ [(getOrInsertChild s cur head.key).1]) ps1 v).1 m).values) ∧
        (∀ m c, c ∈ (getNode s m).skip_pars →
          c ∈ (getNode (addDescend (getOrInsertChild s cur head.key).2
            (getOrInsertChild s cur head.key).1 rest (pos + 1)
            (ns ++ [(getOrInsertChild s cur head.key).1]) ps1 v).1 m).skip_pars) ∧
        ∃ ids, (addDescend (getOrInsertChild s cur head.key).2
            (getOrInsertChild s cur head.key).1 rest (pos + 1)
            (ns ++ [(getOrInsertChild s cur head.key).1]) ps1 v).2.1 = ns ++ ids ∧
          ChainOK (addDescend (getOrInsertChild s cur head.key).2
            (getOrInsertChild s cur head.key).1 rest (pos + 1)
            (ns ++ [(getOrInsertChild s cur head.key).1]) ps1 v).1 cur (head :: rest) ids ∧
          v ∈ (getNode (addDescend (getOrInsertChild s cur head.key).2
            (getOrInsertChild s cur head.key).1 rest (pos + 1)
            (ns ++ [(getOrInsertChild s cur head.key).1]) ps1 v).1 (lastId cur ids)).values ∧
          ∀ i ∈ ids, i < (addDescend (getOrInsertChild s cur head.key).2
            (getOrInsertChild s cur head.key).1 rest (pos + 1)
            (ns ++ [(getOrInsertChild s cur head.key).1]) ps1 v).1.nodes.length := by
      intro ps1
      obtain ⟨ih1, ih2, ih3, ih4, ih5, ids2, hids2, hchain2, hv2, hb2⟩ :=
        ih (getOrInsertChild s cur head.key).2 (getOrInsertChild s cur head.key).1 (pos + 1)
          (ns ++ [(getOrInsertChild s cur head.key).1]) ps1 v hwf1 hc1
      refine ⟨ih1, le_trans sp1 ih2, ?_, ?_, ?_,
        ⟨(getOrInsertChild s cur head.key).1 :: ids2, by simpa using hids2, ?_, ?_, ?_⟩⟩
      · intro m l c h
        exact ih3 m l c (sp3 m l c h)
      · intro m w h
        apply ih4
        rw [sp4 m]
        exact h
      · intro m c h
        apply ih5
        rw [sp5 m]
        exact h
      · exact ⟨(getOrInsertChild s cur head.key).1, ids2, rfl,
          ih3 _ _ _ sp2, hchain2⟩
      · rw [lastId_cons]
        exact hv2
      · intro i hi
        rcases List.mem_cons.mp hi with hi | hi
        · subst hi
          omega
        · exact hb2 i hi
    obtain ⟨hkey, hps⟩ := head
    cases hkey with
    | Exact a => simpa only [addDescend] using step _
    | Wildcard => simpa only [addDescend] using step _
    | RightPar => simpa only [addDescend] using step _
    | LeftPar =>
      cases hps with
      | none => simpa only [addDescend] using step _
      | some size => simpa only [addDescend] using step _

end Multitrie

namespace Multitrie

theorem setNode_oob {K V : Type} {s : MultiTrie K V} {nid : Nat}
    (h : s.nodes.length ≤ nid) (n : MultiTrieNode K V) : setNode s nid n = s := by
  simp only [setNode]
  congr 1
  exact List.set_eq_of_length_le h

/-- The effect of inserting one skip-par edge at node `t`: children and values are
untouched everywhere, the store size is unchanged, and skip-par membership only
grows. -/
theorem setSkip_step {K V : Type} (s : MultiTrie K V) (t endN : Nat) :
    (∀ m, (getNode (setNode s t
      { getNode s t with skip_pars := insertSkip (getNode s t).skip_pars endN }) m).children =
      (getNode s m).children) ∧
    (∀ m, (getNode (setNode s t
      { getNode s t with skip_pars := insertSkip (getNode s t).skip_pars endN }) m).values =
      (getNode s m).values) ∧
    (setNode s t
      { getNode s t with skip_pars := insertSkip (getNode s t).skip_pars endN }).nodes.length =
      s.nodes.length ∧
    (∀ m c, c ∈ (getNode s m).skip_pars → c ∈ (getNode (setNode s t
      { getNode s t with skip_pars := insertSkip (getNode s t).skip_pars endN }) m).skip_pars) ∧
    (t < s.nodes.length → endN ∈ (getNode (setNode s t
      { getNode s t with skip_pars := insertSkip (getNode s t).skip_pars endN }) t).skip_pars) ∧
    ((WF s ∧ endN < s.nodes.length) → WF (setNode s t
      { getNode s t with skip_pars := insertSkip (getNode s t).skip_pars endN })) := by
  by_cases ht : t < s.nodes.length
  · have hget : ∀ m, getNode (setNode s t
        { getNode s t with skip_pars := insertSkip (getNode s t).skip_pars endN }) m =
        if m = t then { getNode s t with skip_pars := insertSkip (getNode s t).skip_pars endN }
        else getNode s m := by
      intro m
      by_cases hm : m = t
      · subst hm
        rw [if_pos rfl, getNode_setNode_same _ ht]
      · rw [if_neg hm, getNode_setNode_other _ hm]
    refine ⟨?_, ?_, by rw [setNode_length], ?_, ?_, ?_⟩
    · intro m
      rw [hget m]
      by_cases hm : m = t
      · rw [if_pos hm]
        subst hm
        rfl
      · rw [if_neg hm]
    · intro m
      rw [hget m]
      by_cases hm : m = t
      · rw [if_pos hm]
        subst hm
        rfl
      · rw [if_neg hm]
    · intro m c h
      rw [hget m]
      by_cases hm : m = t
      · rw [if_pos hm]
        subst hm
        exact insertSkip_mem_of endN h
      · rw [if_neg hm]
        exact h
    · intro _
      rw [hget t, if_pos rfl]
      exact insertSkip_mem_self _ endN
    · rintro ⟨hwf, hend⟩
      rw [WF_iff]
      refine ⟨by rw [setNode_length]; exact hwf.1, ?_⟩
      intro m
      rw [setNode_length, hget m]
      obtain ⟨w1, w2, w3, w4, w5⟩ := WF_getNode hwf m
      by_cases hm : m = t
      · rw [if_pos hm]
        obtain ⟨u1, u2, u3, u4, u5⟩ := WF_getNode hwf t
        refine ⟨u1, u2, ?_, insertSkip_nodup u4 endN, u5⟩
        intro c hc
        rcases mem_insertSkip_iff.mp hc with rfl | hc
        · exact hend
        · exact u3 c hc
      · rw [if_neg hm]
        exact ⟨w1, w2, w3, w4, w5⟩
  · rw [setNode_oob (by omega)]
    exact ⟨fun m => rfl, fun m => rfl, rfl, fun m c h => h, fun ht => absurd ht (by omega),
      fun h => h.1⟩

theorem addPars_preserve {K V : Type} [DecidableEq K] :
    ∀ (ps : List (Nat × Nat)) (s : MultiTrie K V) (ns : List Nat) (s' : MultiTrie K V),
      addPars s ns ps = some s' →
      (∀ m, (getNode s' m).children = (getNode s m).children) ∧
      (∀ m, (getNode s' m).values = (getNode s m).values) ∧
      s'.nodes.length = s.nodes.length ∧
      (∀ m c, c ∈ (getNode s m).skip_pars → c ∈ (getNode s' m).skip_pars) ∧
      ((WF s ∧ ∀ i ∈ ns, i < s.nodes.length) → WF s') := by
  intro ps
  induction ps with
  | nil =>
    intro s ns s' h
    injection h with h
    subst h
    exact ⟨fun m => rfl, fun m => rfl, rfl, fun m c h => h, fun h => h.1⟩
  | cons q ps ih =>
    intro s ns s' h
    obtain ⟨start, stop⟩ := q
    simp only [addPars] at h
    cases hend : ns[stop - 1]? with
    | none =>
      rw [hend] at h
      cases h
    | some endN =>
      rw [hend] at h
      simp only [Option.bind_eq_bind, Option.some_bind] at h
      have hendmem : endN ∈ ns := List.mem_iff_getElem?.mpr ⟨_, hend⟩
      by_cases hs : start > 0
      · rw [if_pos hs] at h
        cases hstart : ns[start - 1]? with
        | none =>
          rw [hstart] at h
          cases h
        | some startN =>
          rw [hstart] at h
          simp only [Option.bind_eq_bind, Option.some_bind] at h
          obtain ⟨st1, st2, st3, st4, st5, st6⟩ := setSkip_step s startN endN
          obtain ⟨p1, p2, p3, p4, p5⟩ := ih _ ns s' h
          refine ⟨?_, ?_, ?_, ?_, ?_⟩
          · intro m
            rw [p1 m, st1 m]
          · intro m
            rw [p2 m, st2 m]
          · rw [p3, st3]
          · intro m c hc
            exact p4 m c (st4 m c hc)
          · rintro ⟨hwf, hns⟩
            apply p5
            constructor
            · exact st6 ⟨hwf, hns endN hendmem⟩
            · intro i hi
              rw [st3]
              exact hns i hi
      · rw [if_neg hs] at h
        obtain ⟨st1, st2, st3, st4, st5, st6⟩ := setSkip_step s 0 endN
        obtain ⟨p1, p2, p3, p4, p5⟩ := ih _ ns s' h
        refine ⟨?_, ?_, ?_, ?_, ?_⟩
        · intro m
          rw [p1 m, st1 m]
        · intro m
          rw [p2 m, st2 m]
        · rw [p3, st3]
        · intro m c hc
          exact p4 m c (st4 m c hc)
        · rintro ⟨hwf, hns⟩
          apply p5
          constructor
          · exact st6 ⟨hwf, hns endN hendmem⟩
          · intro i hi
            rw [st3]
            exact hns i hi

theorem addPars_skip {K V : Type} [DecidableEq K] :
    ∀ (ps : List (Nat × Nat)) (s : MultiTrie K V) (ns : List Nat) (s' : MultiTrie K V),
      addPars s ns ps = some s' → 0 < s.nodes.length →
      (∀ i ∈ ns, i < s.nodes.length) → ∀ start stop, (start, stop) ∈ ps →
      ∀ endN, ns[stop - 1]? = some endN →
        (start = 0 → endN ∈ (getNode s' 0).skip_pars) ∧
        (∀ startN, 0 < start → ns[start - 1]? = some startN →
          endN ∈ (getNode s' startN).skip_pars) := by
  intro ps
  induction ps with
  | nil =>
    intro s ns s' h hroot hns start stop hmem
    simp at hmem
  | cons q ps ih =>
    intro s ns s' h hroot hns start stop hmem endN hend
    obtain ⟨a, b⟩ := q
    rcases List.mem_cons.mp hmem with hq | hq
    · injection hq with hq1 hq2
      subst hq1
      subst hq2
      simp only [addPars] at h
      rw [hend] at h
      simp only [Option.bind_eq_bind, Option.some_bind] at h
      constructor
      · intro h0
        subst h0
        rw [if_neg (by omega)] at h
        obtain ⟨st1, st2, st3, st4, st5, st6⟩ := setSkip_step s 0 endN
        obtain ⟨-, -, -, p4, -⟩ := addPars_preserve ps _ ns s' h
        exact p4 0 endN (st5 hroot)
      · intro startN hpos hstart
        rw [if_pos hpos] at h
        rw [hstart] at h
        simp only [Option.bind_eq_bind, Option.some_bind] at h
        obtain ⟨st1, st2, st3, st4, st5, st6⟩ := setSkip_step s startN endN
        obtain ⟨-, -, -, p4, -⟩ := addPars_preserve ps _ ns s' h
        exact p4 startN endN (st5 (hns startN (List.mem_iff_getElem?.mpr ⟨_, hstart⟩)))
    · simp only [addPars] at h
      cases hend2 : ns[b - 1]? with
      | none =>
        rw [hend2] at h
        cases h
      | some endN2 =>
        rw [hend2] at h
        simp only [Option.bind_eq_bind, Option.some_bind] at h
        by_cases hs : a > 0
        · rw [if_pos hs] at h
          cases hstart2 : ns[a - 1]? with
          | none =>
            rw [hstart2] at h
            cases h
          | some startN2 =>
            rw [hstart2] at h
            simp only [Option.bind_eq_bind, Option.some_bind] at h
            obtain ⟨-, -, st3, -, -, -⟩ := setSkip_step s startN2 endN2
            exact ih _ ns s' h (by rw [st3]; exact hroot)
              (fun i hi => by rw [st3]; exact hns i hi) start stop hq endN hend
        · rw [if_neg hs] at h
          obtain ⟨-, -, st3, -, -, -⟩ := setSkip_step s 0 endN2
          exact ih _ ns s' h (by rw [st3]; exact hroot)
            (fun i hi => by rw [st3]; exact hns i hi) start stop hq endN hend

theorem ChainOK_of_children_eq {K V : Type} [DecidableEq K] {s s' : MultiTrie K V}
    (hc : ∀ m, (getNode s' m).children = (getNode s m).children) :
    ∀ (key : TrieKey K) (cur : Nat) (ids : List Nat),
      ChainOK s cur key ids → ChainOK s' cur key ids := by
  intro key
  induction key with
  | nil => intro cur ids h; exact h
  | cons head rest ih =>
    intro cur ids h
    obtain ⟨c, ids2, hids, hlook, hchain⟩ := h
    exact ⟨c, ids2, hids, by rw [hc cur]; exact hlook, ih c ids2 hchain⟩

theorem add_chain {K V : Type} [DecidableEq K] [DecidableEq V] {k : TrieKey K}
    {s : MultiTrie K V} (hwf : WF s) (v : V) {s' : MultiTrie K V}
    (hadd : add s k v = some s') :
    WF s' ∧ ∃ ids, ChainOK s' 0 k ids ∧ v ∈ (getNode s' (lastId 0 ids)).values := by
  cases k with
  | nil =>
    obtain ⟨d1, -, -, -, -, ids, -, dchain, dval, -⟩ :=
      addDescend_chain [] s 0 0 [] [] v hwf hwf.1
    simp only [add] at hadd
    injection hadd with hadd
    have hs' : s' = (addDescend s 0 [] 0 [] [] v).1 := by
      rw [← hadd]
      rfl
    subst hs'
    exact ⟨d1, ids, dchain, dval⟩
  | cons head rest =>
    obtain ⟨d1, d2, d3, d4, d5, ids, hids, dchain, dval, dbound⟩ :=
      addDescend_chain (head :: rest) s 0 0 [] [] v hwf hwf.1
    simp only [add] at hadd
    obtain ⟨p1, p2, p3, p4, p5⟩ := addPars_preserve _ _ _ _ hadd
    refine ⟨?_, ids, ?_, ?_⟩
    · apply p5
      refine ⟨d1, ?_⟩
      intro i hi
      rw [hids] at hi
      simp only [List.nil_append] at hi
      exact dbound i hi
    · exact ChainOK_of_children_eq p1 _ _ _ dchain
    · rw [p2]
      exact dval

theorem explore_of_chain {K V : Type} [DecidableEq K] :
    ∀ (key : TrieKey K) (s : MultiTrie K V) (cur : Nat) (ids : List Nat) (fuel : Nat),
      ChainOK s cur key ids → KeyTotal key → key.length ≤ fuel →
      ∃ L, exploreB s fuel cur key = some L ∧ lastId cur ids ∈ L := by
  intro key
  induction key with
  | nil =>
    intro s cur ids fuel hchain _ _
    have hids : ids = [] := hchain
    subst hids
    exact ⟨[cur], exploreB_nil s fuel cur, by simp [lastId_nil]⟩
  | cons head rest ih =>
    intro s cur ids fuel hchain hkt hfuel
    obtain ⟨c, ids2, hids, hlook, hchain2⟩ := hchain
    subst hids
    cases fuel with
    | zero => simp at hfuel
    | succ fuel =>
      obtain ⟨frames, hst⟩ := strategy_some_of_KeyTotal s cur hkt
      have hmemfr : (c, rest) ∈ frames := strategy_mem_label hst hlook
      simp only [List.length_cons] at hfuel
      have hall : ∀ fr ∈ frames, ∃ lf, exploreB s fuel fr.1 fr.2 = some lf := by
        intro fr hfr
        exact exploreB_some_of_KeyTotal s fuel fr.1 fr.2
          (strategy_frame_KeyTotal hst hkt fr hfr)
          (le_trans (strategy_frame_len hst fr hfr) (by omega))
      obtain ⟨L, hL⟩ := exploreFramesWith_isSome hall
      obtain ⟨L', hL', hmem'⟩ := ih s c ids2 fuel hchain2 (KeyTotal_tail hkt) (by
        have := strategy_frame_len hst (c, rest) hmemfr
        simp at this
        omega)
      refine ⟨L, ?_, ?_⟩
      · rw [exploreB_cons, hst]
        exact hL
      · rw [lastId_cons]
        exact ((exploreFramesWith_eq_some hL).2 _).mpr ⟨(c, rest), hmemfr, L', hL', hmem'⟩

/-- C1: for every well-formed trie state and every key built by `from_list`, after
`add k v` a `get k` yields `v` at least once. -/
theorem claim_C1_add_get {K V : Type} [DecidableEq K] [DecidableEq V]
    {ts : List (NodeKey K)} {k : TrieKey K}
    (hok : precalculate_par_sizes ts = Except.ok k) {s : MultiTrie K V} (hwf : WF s)
    (v : V) : ∃ s' l, add s k v = some s' ∧ getValues s' 0 k = some l ∧ v ∈ l := by
  obtain ⟨s', hadd⟩ := add_some hok s v
  obtain ⟨hwf', ids, hchain, hval⟩ := add_chain hwf v hadd
  obtain ⟨L, hL, hmem⟩ := explore_of_chain k s' 0 ids k.length hchain
    ((precalc_ok_props hok).2.1) (le_refl _)
  refine ⟨s', L.flatMap fun n => (getNode s' n).values, hadd, ?_, ?_⟩
  · simp [getValues, exploreNodes, hL]
  · exact List.mem_flatMap.mpr ⟨lastId 0 ids, hmem, hval⟩

/-- Witness for C1: the single-token key `Exact 0` added to the empty trie with
value 7. -/
theorem claim_C1_witness :
    precalculate_par_sizes [NodeKey.Exact (0 : Nat)] = Except.ok keyExact0 ∧
    WF (MultiTrie.new : MultiTrie Nat Nat) ∧
    (∃ s' l, add (MultiTrie.new : MultiTrie Nat Nat) keyExact0 7 = some s' ∧
      getValues s' 0 keyExact0 = some l ∧ 7 ∈ l) :=
  ⟨rfl, by decide,
    @claim_C1_add_get Nat Nat _ _ [NodeKey.Exact 0] keyExact0 rfl MultiTrie.new (by decide) 7⟩

end Multitrie

namespace Multitrie

/-- C6: after `add(key, value)`, for every `LeftPar` at position `i` whose span
annotation is `sz` (its matching `RightPar` sits at `i + sz`), a skip-par edge
runs from the node reached immediately before the `LeftPar` — the root when
`i = 0`, otherwise the walk node of position `i - 1` — to the node reached
immediately after the `RightPar` (the walk node of position `i + sz`): the end
node's identity is a member of the start node's `skip_pars` map. -/
theorem claim_C6_skip_par_edges {K V : Type} [DecidableEq K] [DecidableEq V]
    {ts : List (NodeKey K)} {k : TrieKey K} (hok : precalculate_par_sizes ts = Except.ok k)
    {s : MultiTrie K V} (hwf : WF s) (v : V) {s' : MultiTrie K V}
    (hadd : add s k v = some s') {i sz : Nat}
    (hi : k[i]? = some { key := NodeKey.LeftPar, par_size := some sz }) :
    ∃ endN, (addNodes s k v)[i + sz]? = some endN ∧
      (i = 0 → endN ∈ (getNode s' 0).skip_pars) ∧
      (∀ startN, 0 < i → (addNodes s k v)[i - 1]? = some startN →
        endN ∈ (getNode s' startN).skip_pars) := by
  cases hk : k with
  | nil =>
    subst hk
    simp at hi
  | cons head rest =>
    subst hk
    simp only [add] at hadd
    obtain ⟨-, d2, -, -, -, ids, hids, -, -, dbound⟩ :=
      addDescend_chain (head :: rest) s 0 0 [] [] v hwf hwf.1
    obtain ⟨ids2, hids2, hlen2⟩ := addDescend_nodes (head :: rest) s 0 0 [] [] v
    have hnsdef : addNodes s (head :: rest) v = (addDescend s 0 (head :: rest) 0 [] [] v).2.1 :=
      rfl
    have hmempars : (0 + i, 0 + i + sz + 1) ∈ (addDescend s 0 (head :: rest) 0 [] [] v).2.2 := by
      rw [addDescend_pars]
      simp only [List.nil_append]
      exact parsOf_mem hi
    have hbound : i + sz < (head :: rest).length := precalc_spans_lt hok hi rfl
    have hnslen : (addDescend s 0 (head :: rest) 0 [] [] v).2.1.length =
        (head :: rest).length := by
      rw [hids2]
      simp [hlen2]
    obtain ⟨endN, hend⟩ : ∃ e,
        (addDescend s 0 (head :: rest) 0 [] [] v).2.1[(0 + i + sz + 1) - 1]? = some e := by
      refine ⟨_, List.getElem?_eq_getElem ?_⟩
      rw [hnslen]
      omega
    have hroot2 : 0 < (addDescend s 0 (head :: rest) 0 [] [] v).1.nodes.length := by
      have := hwf.1
      omega
    have hns2 : ∀ j ∈ (addDescend s 0 (head :: rest) 0 [] [] v).2.1,
        j < (addDescend s 0 (head :: rest) 0 [] [] v).1.nodes.length := by
      intro j hj
      rw [hids] at hj
      simp only [List.nil_append] at hj
      exact dbound j hj
    obtain ⟨hc0, hcpos⟩ := addPars_skip _ _ _ _ hadd hroot2 hns2 (0 + i) (0 + i + sz + 1)
      hmempars endN hend
    have harith : (0 + i + sz + 1) - 1 = i + sz := by omega
    rw [harith] at hend
    refine ⟨endN, hend, ?_, ?_⟩
    · intro h0
      exact hc0 (by omega)
    · intro startN hpos hstart
      apply hcpos startN (by omega)
      have harith2 : 0 + i - 1 = i - 1 := by omega
      rw [harith2]
      exact hstart

/-- Witness for C6: adding the key `( )` to the empty trie records a skip-par edge
from the root to node 2 (the node after the `RightPar`). -/
theorem claim_C6_witness :
    precalculate_par_sizes [NodeKey.LeftPar, (NodeKey.RightPar : NodeKey Nat)] =
      Except.ok keyParPair ∧ WF (MultiTrie.new : MultiTrie Nat Nat) ∧
    (∃ endN, (addNodes (MultiTrie.new : MultiTrie Nat Nat) keyParPair 0)[0 + 1]? = some endN ∧
      (0 = 0 → endN ∈ (getNode ({ nodes :=
        [{ children := [(NodeKey.LeftPar, 1)], skip_pars := [2], values := [] },
         { children := [(NodeKey.RightPar, 2)], skip_pars := [], values := [] },
         { children := [], skip_pars := [], values := [0] }] } : MultiTrie Nat Nat)
         0).skip_pars) ∧
      (∀ startN, 0 < 0 →
        (addNodes (MultiTrie.new : MultiTrie Nat Nat) keyParPair 0)[0 - 1]? = some startN →
        endN ∈ (getNode ({ nodes :=
          [{ children := [(NodeKey.LeftPar, 1)], skip_pars := [2], values := [] },
           { children := [(NodeKey.RightPar, 2)], skip_pars := [], values := [] },
           { children := [], skip_pars := [], values := [0] }] } : MultiTrie Nat Nat)
           startN).skip_pars)) :=
  ⟨rfl, by decide,
    @claim_C6_skip_par_edges Nat Nat _ _ [NodeKey.LeftPar, NodeKey.RightPar] keyParPair rfl
      MultiTrie.new (by decide) 0 _ (by decide) 0 1 rfl⟩

end Multitrie

namespace Multitrie

/-! ### `eraseFirst` -/

theorem eraseFirst_sublist {V : Type} [DecidableEq V] (l : List V) (v : V) :
    (eraseFirst l v).Sublist l := by
  induction l with
  | nil => simp [eraseFirst]
  | cons x rest ih =>
    simp only [eraseFirst]
    by_cases hx : x = v
    · rw [if_pos hx]
      exact List.sublist_cons_self x rest
    · rw [if_neg hx]
      exact List.Sublist.cons₂ x ih

theorem eraseFirst_of_not_mem {V : Type} [DecidableEq V] {l : List V} {v : V}
    (h : v ∉ l) : eraseFirst l v = l := by
  induction l with
  | nil => rfl
  | cons x rest ih =>
    simp only [List.mem_cons, not_or] at h
    simp only [eraseFirst, if_neg (Ne.symm h.1)]
    rw [ih h.2]

theorem mem_eraseFirst_iff {V : Type} [DecidableEq V] :
    ∀ {l : List V}, l.Nodup → ∀ {v w : V}, (w ∈ eraseFirst l v ↔ w ∈ l ∧ w ≠ v) := by
  intro l
  induction l with
  | nil => intro _ v w; simp [eraseFirst]
  | cons x rest ih =>
    intro hnd v w
    rw [List.nodup_cons] at hnd
    simp only [eraseFirst]
    by_cases hx : x = v
    · rw [if_pos hx]
      subst hx
      constructor
      · intro hw
        refine ⟨List.mem_cons_of_mem _ hw, ?_⟩
        intro he
        subst he
        exact hnd.1 hw
      · rintro ⟨hw, hne⟩
        rcases List.mem_cons.mp hw with h | h
        · exact absurd h hne
        · exact h
    · rw [if_neg hx]
      constructor
      · intro hw
        rcases List.mem_cons.mp hw with h | h
        · subst h
          exact ⟨List.mem_cons_self _ _, fun he => hx he⟩
        · obtain ⟨h1, h2⟩ := (ih hnd.2).mp h
          exact ⟨List.mem_cons_of_mem _ h1, h2⟩
      · rintro ⟨hw, hne⟩
        rcases List.mem_cons.mp hw with h | h
        · subst h
          exact List.mem_cons_self _ _
        · exact List.mem_cons_of_mem _ ((ih hnd.2).mpr ⟨h, hne⟩)

/-- C10: the empty key addresses the root itself.  `add` inserts the value into
the root's own set and creates no node and no edge; `get` yields exactly the
root's values; `remove` deletes the value from the root's set and reports whether
it was there, touching nothing else. -/
theorem claim_C10_empty_key {K V : Type} [DecidableEq K] [DecidableEq V]
    {s : MultiTrie K V} (hwf : WF s) (v : V) :
    (∃ s', add s [] v = some s' ∧ s'.nodes.length = s.nodes.length ∧
      (∀ m, (getNode s' m).children = (getNode s m).children) ∧
      (∀ m, (getNode s' m).skip_pars = (getNode s m).skip_pars) ∧
      (∀ m, m ≠ 0 → (getNode s' m).values = (getNode s m).values) ∧
      (∀ w, w ∈ (getNode s' 0).values ↔ w = v ∨ w ∈ (getNode s 0).values)) ∧
    getValues s 0 [] = some ((getNode s 0).values) ∧
    (∃ b s2, remove s [] v = some (b, s2) ∧ (b = true ↔ v ∈ (getNode s 0).values) ∧
      s2.nodes.length = s.nodes.length ∧
      (∀ m, (getNode s2 m).children = (getNode s m).children) ∧
      (∀ m, (getNode s2 m).skip_pars = (getNode s m).skip_pars) ∧
      (∀ m, m ≠ 0 → (getNode s2 m).values = (getNode s m).values) ∧
      (∀ w, w ∈ (getNode s2 0).values ↔ w ∈ (getNode s 0).values ∧ w ≠ v)) := by
  have hroot := hwf.1
  have hset : ∀ (vs : List V) (m : Nat),
      getNode (setNode s 0 { getNode s 0 with values := vs }) m =
        if m = 0 then { getNode s 0 with values := vs } else getNode s m := by
    intro vs m
    by_cases hm : m = 0
    · subst hm
      rw [if_pos rfl, getNode_setNode_same _ hroot]
    · rw [if_neg hm, getNode_setNode_other _ hm]
  refine ⟨⟨_, rfl, by rw [setNode_length], ?_, ?_, ?_, ?_⟩, ?_, ?_⟩
  · intro m
    rw [hset]
    by_cases hm : m = 0
    · rw [if_pos hm]
      subst hm
      rfl
    · rw [if_neg hm]
  · intro m
    rw [hset]
    by_cases hm : m = 0
    · rw [if_pos hm]
      subst hm
      rfl
    · rw [if_neg hm]
  · intro m hm
    rw [hset, if_neg hm]
  · intro w
    rw [hset, if_pos rfl]
    exact mem_insertValue_iff
  · simp [getValues, exploreNodes, exploreB_nil]
  · refine ⟨decide (v ∈ (getNode s 0).values), _, removeB_nil v 0 s 0, by simp, ?_, ?_, ?_, ?_, ?_⟩
    · rw [setNode_length]
    · intro m
      rw [hset]
      by_cases hm : m = 0
      · rw [if_pos hm]
        subst hm
        rfl
      · rw [if_neg hm]
    · intro m
      rw [hset]
      by_cases hm : m = 0
      · rw [if_pos hm]
        subst hm
        rfl
      · rw [if_neg hm]
    · intro m hm
      rw [hset, if_neg hm]
    · intro w
      rw [hset, if_pos rfl]
      exact mem_eraseFirst_iff (WF_getNode hwf 0).2.2.2.2

/-- Witness for C10 at the empty trie and value 3. -/
theorem claim_C10_witness :
    WF (MultiTrie.new : MultiTrie Nat Nat) ∧
    ((∃ s', add (MultiTrie.new : MultiTrie Nat Nat) [] 3 = some s' ∧
      s'.nodes.length = (MultiTrie.new : MultiTrie Nat Nat).nodes.length ∧
      (∀ m, (getNode s' m).children = (getNode (MultiTrie.new : MultiTrie Nat Nat) m).children) ∧
      (∀ m, (getNode s' m).skip_pars =
        (getNode (MultiTrie.new : MultiTrie Nat Nat) m).skip_pars) ∧
      (∀ m, m ≠ 0 → (getNode s' m).values =
        (getNode (MultiTrie.new : MultiTrie Nat Nat) m).values) ∧
      (∀ w, w ∈ (getNode s' 0).values ↔ w = 3 ∨
        w ∈ (getNode (MultiTrie.new : MultiTrie Nat Nat) 0).values)) ∧
    getValues (MultiTrie.new : MultiTrie Nat Nat) 0 [] =
      some ((getNode (MultiTrie.new : MultiTrie Nat Nat) 0).values) ∧
    (∃ b s2, remove (MultiTrie.new : MultiTrie Nat Nat) [] 3 = some (b, s2) ∧
      (b = true ↔ 3 ∈ (getNode (MultiTrie.new : MultiTrie Nat Nat) 0).values) ∧
      s2.nodes.length = (MultiTrie.new : MultiTrie Nat Nat).nodes.length ∧
      (∀ m, (getNode s2 m).children = (getNode (MultiTrie.new : MultiTrie Nat Nat) m).children) ∧
      (∀ m, (getNode s2 m).skip_pars =
        (getNode (MultiTrie.new : MultiTrie Nat Nat) m).skip_pars) ∧
      (∀ m, m ≠ 0 → (getNode s2 m).values =
        (getNode (MultiTrie.new : MultiTrie Nat Nat) m).values) ∧
      (∀ w, w ∈ (getNode s2 0).values ↔
        w ∈ (getNode (MultiTrie.new : MultiTrie Nat Nat) 0).values ∧ w ≠ 3))) :=
  ⟨by decide, claim_C10_empty_key (by decide) 3⟩

/-! ### A failed `remove` leaves the trie untouched -/

theorem setNode_getNode {K V : Type} (s : MultiTrie K V) (nid : Nat) :
    setNode s nid (getNode s nid) = s := by
  simp only [setNode]
  have h0 : s.nodes.set nid (getNode s nid) = s.nodes := by
    by_cases hn : nid < s.nodes.length
    · apply list_set_same
      rw [List.getElem?_eq_getElem hn]
      congr 1
      simp [getNode_eq, List.getElem?_eq_getElem hn]
    · exact List.set_eq_of_length_le (by omega)
  rw [h0]

theorem removeStep_false {K V : Type} [DecidableEq K] (s : MultiTrie K V) (nid : Nat)
    (lbl : Option (NodeKey K)) (c : Nat) : removeStep s nid lbl c false = s := rfl

theorem removeBranchesWith_false {K V : Type} [DecidableEq K]
    {f : MultiTrie K V → Nat → TrieKey K → Option (Bool × MultiTrie K V)} {nid : Nat} :
    ∀ {l : List (Option (NodeKey K) × Nat × TrieKey K)},
      (∀ b ∈ l, ∀ t t', f t b.2.1 b.2.2 = some (false, t') → t' = t) →
      ∀ {s s' : MultiTrie K V}, removeBranchesWith f nid l s = some (false, s') → s' = s := by
  intro l
  induction l with
  | nil =>
    intro _ s s' h
    injection h with h
    injection h with _ h
    exact h.symm
  | cons b rest ih =>
    intro hf s s' h
    obtain ⟨lbl, c, k⟩ := b
    simp only [removeBranchesWith] at h
    cases hf1 : f s c k with
    | none => rw [hf1] at h; cases h
    | some r1 =>
      rw [hf1] at h
      simp only [Option.bind_eq_bind, Option.some_bind] at h
      cases hf2 : removeBranchesWith f nid rest (removeStep r1.2 nid lbl c r1.1) with
      | none => rw [hf2] at h; cases h
      | some r2 =>
        rw [hf2] at h
        simp only [Option.bind_eq_bind, Option.some_bind] at h
        injection h with h
        obtain ⟨r1b, r1s⟩ := r1
        obtain ⟨r2b, r2s⟩ := r2
        simp only [Prod.mk.injEq] at h
        obtain ⟨hor, hst⟩ := h
        rcases Bool.or_eq_false_iff.mp hor with ⟨h1, h2⟩
        subst h1
        have hr1 : r1s = s := hf (lbl, c, k) (List.mem_cons_self _ _) s r1s hf1
        rw [removeStep_false, hr1] at hf2
        subst h2
        have hr2 : r2s = s := ih (fun b hb => hf b (List.mem_cons_of_mem _ hb)) hf2
        rw [← hst]
        exact hr2

theorem removeB_false_eq {K V : Type} [DecidableEq K] [DecidableEq V] (v : V) :
    ∀ (fuel : Nat) (s : MultiTrie K V) (nid : Nat) (key : TrieKey K) (s' : MultiTrie K V),
      removeB v fuel s nid key = some (false, s') → s' = s := by
  intro fuel
  induction fuel with
  | zero =>
    intro s nid key s' h
    cases key with
    | nil =>
      rw [removeB_nil] at h
      injection h with h
      rw [Prod.mk.injEq] at h
      obtain ⟨h1, h2⟩ := h
      rw [← h2]
      have hmem : v ∉ (getNode s nid).values := by
        intro hmem
        rw [decide_eq_true hmem] at h1
        cases h1
      rw [eraseFirst_of_not_mem hmem]
      exact setNode_getNode s nid
    | cons head rest => cases h
  | succ fuel ih =>
    intro s nid key s' h
    cases key with
    | nil =>
      rw [removeB_nil] at h
      injection h with h
      rw [Prod.mk.injEq] at h
      obtain ⟨h1, h2⟩ := h
      rw [← h2]
      have hmem : v ∉ (getNode s nid).values := by
        intro hmem
        rw [decide_eq_true hmem] at h1
        cases h1
      rw [eraseFirst_of_not_mem hmem]
      exact setNode_getNode s nid
    | cons head rest =>
      rw [removeB_cons] at h
      cases hbs : childBranches s nid (head :: rest) with
      | none => rw [hbs] at h; cases h
      | some bs =>
        rw [hbs] at h
        exact removeBranchesWith_false (fun b _ t t' hf => ih t b.2.1 b.2.2 t' hf) h

/-- C9: a `remove` that returns `false` leaves the trie exactly as it was: values
are only deleted on hits, and edge pruning happens only on branches whose
recursive removal returned `true`. -/
theorem claim_C9_remove_false_id {K V : Type} [DecidableEq K] [DecidableEq V]
    {s : MultiTrie K V} {key : TrieKey K} {v : V} {s' : MultiTrie K V}
    (h : remove s key v = some (false, s')) : s' = s :=
  removeB_false_eq v key.length s 0 key s' h

/-- Witness for C9: removing an absent value from the empty trie fails and leaves
the trie unchanged. -/
theorem claim_C9_witness :
    remove (MultiTrie.new : MultiTrie Nat Nat) keyExact0 5 = some (false, MultiTrie.new) ∧
    MultiTrie.new = (MultiTrie.new : MultiTrie Nat Nat) :=
  ⟨by decide, @claim_C9_remove_false_id Nat Nat _ _ MultiTrie.new keyExact0 5 MultiTrie.new (by decide)⟩

end Multitrie

namespace Multitrie

/-! ### The shrink order on states -/

theorem NodeLE_refl {K V : Type} (n : MultiTrieNode K V) : NodeLE n n :=
  ⟨List.Sublist.refl _, List.Sublist.refl _, List.Sublist.refl _⟩

theorem StateLE_refl {K V : Type} (s : MultiTrie K V) : StateLE s s :=
  ⟨rfl, fun _ => NodeLE_refl _⟩

theorem StateLE_trans {K V : Type} {a b c : MultiTrie K V} (h1 : StateLE a b)
    (h2 : StateLE b c) : StateLE a c := by
  obtain ⟨l1, n1⟩ := h1
  obtain ⟨l2, n2⟩ := h2
  refine ⟨l1.trans l2, fun nid => ?_⟩
  obtain ⟨a1, a2, a3⟩ := n1 nid
  obtain ⟨b1, b2, b3⟩ := n2 nid
  exact ⟨a1.trans b1, a2.trans b2, a3.trans b3⟩

theorem eraseChild_sublist {K : Type} [DecidableEq K] (l : List (NodeKey K × Nat))
    (k : NodeKey K) : (eraseChild l k).Sublist l := by
  induction l with
  | nil => simp [eraseChild]
  | cons p rest ih =>
    obtain ⟨l0, c0⟩ := p
    simp only [eraseChild]
    by_cases he : l0 = k
    · rw [if_pos he]
      exact List.sublist_cons_self _ rest
    · rw [if_neg he]
      exact List.Sublist.cons₂ _ ih

theorem setNode_le {K V : Type} {s : MultiTrie K V} {nid : Nat} {n : MultiTrieNode K V}
    (h : NodeLE n (getNode s nid)) : StateLE (setNode s nid n) s := by
  refine ⟨by rw [setNode_length], ?_⟩
  intro m
  by_cases hin : nid < s.nodes.length
  · by_cases hm : m = nid
    · subst hm
      rw [getNode_setNode_same _ hin]
      exact h
    · rw [getNode_setNode_other _ hm]
      exact NodeLE_refl _
  · rw [setNode_oob (by omega)]
    exact NodeLE_refl _

theorem removeStep_le {K V : Type} [DecidableEq K] (s : MultiTrie K V) (nid : Nat)
    (lbl : Option (NodeKey K)) (c : Nat) (removed : Bool) :
    StateLE (removeStep s nid lbl c removed) s := by
  unfold removeStep
  by_cases hcond : (removed && (getNode s c).is_empty) = true
  · rw [if_pos hcond]
    cases lbl with
    | some l =>
      exact setNode_le ⟨eraseChild_sublist _ _, List.Sublist.refl _, List.Sublist.refl _⟩
    | none =>
      exact setNode_le ⟨List.Sublist.refl _, eraseFirst_sublist _ _, List.Sublist.refl _⟩
  · rw [if_neg hcond]
    exact StateLE_refl s

theorem removeBranchesWith_le {K V : Type} [DecidableEq K]
    {f : MultiTrie K V → Nat → TrieKey K → Option (Bool × MultiTrie K V)} {nid : Nat}
    (hf : ∀ t c k r, f t c k = some r → StateLE r.2 t) :
    ∀ {l : List (Option (NodeKey K) × Nat × TrieKey K)} {s : MultiTrie K V}
      {bb : Bool} {s' : MultiTrie K V},
      removeBranchesWith f nid l s = some (bb, s') → StateLE s' s := by
  intro l
  induction l with
  | nil =>
    intro s bb s' h
    injection h with h
    rw [Prod.mk.injEq] at h
    rw [← h.2]
    exact StateLE_refl s
  | cons b rest ih =>
    intro s bb s' h
    obtain ⟨lbl, c, k⟩ := b
    simp only [removeBranchesWith] at h
    cases hf1 : f s c k with
    | none => rw [hf1] at h; cases h
    | some r1 =>
      rw [hf1] at h
      simp only [Option.bind_eq_bind, Option.some_bind] at h
      cases hf2 : removeBranchesWith f nid rest (removeStep r1.2 nid lbl c r1.1) with
      | none => rw [hf2] at h; cases h
      | some r2 =>
        rw [hf2] at h
        simp only [Option.bind_eq_bind, Option.some_bind] at h
        injection h with h
        rw [Prod.mk.injEq] at h
        rw [← h.2]
        exact StateLE_trans (StateLE_trans (ih hf2) (removeStep_le r1.2 nid lbl c r1.1))
          (hf _ _ _ _ hf1)

theorem removeB_le {K V : Type} [DecidableEq K] [DecidableEq V] (v : V) :
    ∀ (fuel : Nat) (s : MultiTrie K V) (nid : Nat) (key : TrieKey K)
      (r : Bool × MultiTrie K V), removeB v fuel s nid key = some r → StateLE r.2 s := by
  intro fuel
  induction fuel with
  | zero =>
    intro s nid key r h
    cases key with
    | nil =>
      rw [removeB_nil] at h
      injection h with h
      rw [← h]
      exact setNode_le ⟨List.Sublist.refl _, List.Sublist.refl _, eraseFirst_sublist _ _⟩
    | cons head rest => cases h
  | succ fuel ih =>
    intro s nid key r h
    cases key with
    | nil =>
      rw [removeB_nil] at h
      injection h with h
      rw [← h]
      exact setNode_le ⟨List.Sublist.refl _, List.Sublist.refl _, eraseFirst_sublist _ _⟩
    | cons head rest =>
      rw [removeB_cons] at h
      cases hbs : childBranches s nid (head :: rest) with
      | none => rw [hbs] at h; cases h
      | some bs =>
        rw [hbs] at h
        obtain ⟨rb, rs⟩ := r
        exact removeBranchesWith_le (fun t c k r2 h2 => ih t c k r2 h2) h

theorem WF_of_StateLE {K V : Type} {t s : MultiTrie K V} (hle : StateLE t s) (hwf : WF s) :
    WF t := by
  obtain ⟨hlen, hn⟩ := hle
  rw [WF_iff]
  refine ⟨by rw [hlen]; exact hwf.1, ?_⟩
  intro nid
  obtain ⟨c1, c2, c3, c4, c5⟩ := WF_getNode hwf nid
  obtain ⟨n1, n2, n3⟩ := hn nid
  rw [hlen]
  exact ⟨fun p hp => c1 p (n1.subset hp), c2.sublist (n1.map Prod.fst),
    fun cc hcc => c3 cc (n2.subset hcc), c4.sublist n2, c5.sublist n3⟩

theorem is_empty_mono {K V : Type} {a b : MultiTrie K V} (h : StateLE b a) {c : Nat}
    (he : (getNode a c).is_empty = true) : (getNode b c).is_empty = true := by
  obtain ⟨n1, n2, n3⟩ := h.2 c
  unfold MultiTrieNode.is_empty at *
  simp only [Bool.and_eq_true, List.isEmpty_iff] at he ⊢
  obtain ⟨h1, h2⟩ := he
  constructor
  · rw [h1] at n1
    exact List.sublist_nil.mp n1
  · rw [h2] at n3
    exact List.sublist_nil.mp n3

theorem lookup_of_le {K V : Type} [DecidableEq K] {s t : MultiTrie K V} (hwf : WF s)
    (hle : StateLE t s) {m : Nat} {x : NodeKey K} {c : Nat}
    (h : lookupChild (getNode t m).children x = some c) :
    lookupChild (getNode s m).children x = some c := by
  have hmem : (x, c) ∈ (getNode t m).children := lookupChild_mem h
  have hmem2 : (x, c) ∈ (getNode s m).children := (hle.2 m).1.subset hmem
  exact mem_lookupChild_of_nodup (WF_getNode hwf m).2.1 hmem2

theorem strategy_mono {K V : Type} [DecidableEq K] {s t : MultiTrie K V} (hwf : WF s)
    (hle : StateLE t s) {nid : Nat} {key : TrieKey K}
    {frames_t frames_s : List (Nat × TrieKey K)}
    (ht : get_exploring_strategy t nid key = some frames_t)
    (hs : get_exploring_strategy s nid key = some frames_s) :
    ∀ fr ∈ frames_t, fr ∈ frames_s := by
  intro fr hfr
  cases key with
  | nil => cases ht
  | cons head rest =>
    obtain ⟨hkey, hps⟩ := head
    cases hkey with
    | Exact a =>
      simp only [get_exploring_strategy] at ht hs
      injection ht with ht
      injection hs with hs
      subst ht
      subst hs
      simp only [List.mem_append, Option.mem_toList, Option.mem_def,
        Option.map_eq_some'] at hfr ⊢
      rcases hfr with ⟨c, hc, hfr⟩ | ⟨c, hc, hfr⟩
      · exact Or.inl ⟨c, lookup_of_le hwf hle hc, hfr⟩
      · exact Or.inr ⟨c, lookup_of_le hwf hle hc, hfr⟩
    | RightPar =>
      simp only [get_exploring_strategy] at ht hs
      injection ht with ht
      injection hs with hs
      subst ht
      subst hs
      simp only [Option.mem_toList, Option.mem_def, Option.map_eq_some'] at hfr ⊢
      rcases hfr with ⟨c, hc, hfr⟩
      exact ⟨c, lookup_of_le hwf hle hc, hfr⟩
    | LeftPar =>
      cases hps with
      | none => cases ht
      | some size =>
        simp only [get_exploring_strategy] at ht hs
        injection ht with ht
        injection hs with hs
        subst ht
        subst hs
        simp only [List.mem_append, Option.mem_toList, Option.mem_def,
          Option.map_eq_some'] at hfr ⊢
        rcases hfr with ⟨c, hc, hfr⟩ | ⟨c, hc, hfr⟩
        · exact Or.inl ⟨c, lookup_of_le hwf hle hc, hfr⟩
        · exact Or.inr ⟨c, lookup_of_le hwf hle hc, hfr⟩
    | Wildcard =>
      simp only [get_exploring_strategy] at ht hs
      injection ht with ht
      injection hs with hs
      subst ht
      subst hs
      simp only [List.mem_append, List.mem_map] at hfr ⊢
      rcases hfr with ⟨p, hp, hfr⟩ | ⟨c, hc, hfr⟩
      · left
        refine ⟨p, ?_, hfr⟩
        rw [List.mem_filter] at hp ⊢
        exact ⟨(hle.2 nid).1.subset hp.1, hp.2⟩
      · right
        exact ⟨c, (hle.2 nid).2.1.subset hc, hfr⟩

theorem explore_mono {K V : Type} [DecidableEq K] {s t : MultiTrie K V} (hwf : WF s)
    (hle : StateLE t s) :
    ∀ (fuel nid : Nat) (key : TrieKey K) (Lt Ls : List Nat),
      exploreB t fuel nid key = some Lt → exploreB s fuel nid key = some Ls →
      ∀ x ∈ Lt, x ∈ Ls := by
  intro fuel
  induction fuel with
  | zero =>
    intro nid key Lt Ls ht hs x hx
    cases key with
    | nil =>
      rw [exploreB_nil] at ht hs
      injection ht with ht
      injection hs with hs
      subst ht
      subst hs
      exact hx
    | cons head rest => cases ht
  | succ fuel ih =>
    intro nid key Lt Ls ht hs x hx
    cases key with
    | nil =>
      rw [exploreB_nil] at ht hs
      injection ht with ht
      injection hs with hs
      subst ht
      subst hs
      exact hx
    | cons head rest =>
      rw [exploreB_cons] at ht hs
      cases hstt : get_exploring_strategy t nid (head :: rest) with
      | none => rw [hstt] at ht; cases ht
      | some frt =>
        rw [hstt] at ht
        cases hsts : get_exploring_strategy s nid (head :: rest) with
        | none => rw [hsts] at hs; cases hs
        | some frs =>
          rw [hsts] at hs
          obtain ⟨fr, hfr, lf, hlf, hxl⟩ := ((exploreFramesWith_eq_some ht).2 x).mp hx
          have hfrs : fr ∈ frs := strategy_mono hwf hle hstt hsts fr hfr
          obtain ⟨lfs, hlfs⟩ := (exploreFramesWith_eq_some hs).1 fr hfrs
          exact ((exploreFramesWith_eq_some hs).2 x).mpr
            ⟨fr, hfrs, lfs, hlfs, ih fr.1 fr.2 lf lfs hlf hlfs x hxl⟩

end Multitrie

namespace Multitrie

/-! ### Prune soundness of `remove` -/

theorem mem_eraseChild_or {K : Type} [DecidableEq K] :
    ∀ {l : List (NodeKey K × Nat)} {k : NodeKey K} {p : NodeKey K × Nat},
      p ∈ l → p ∉ eraseChild l k → p.1 = k := by
  intro l
  induction l with
  | nil => intro k p hp; simp at hp
  | cons q rest ih =>
    intro k p hp hout
    obtain ⟨l0, c0⟩ := q
    simp only [eraseChild] at hout
    by_cases he : l0 = k
    · rw [if_pos he] at hout
      rcases List.mem_cons.mp hp with hp | hp
      · rw [hp]
        exact he
      · exact absurd hp hout
    · rw [if_neg he] at hout
      rcases List.mem_cons.mp hp with hp | hp
      · exact absurd (hp ▸ List.mem_cons_self _ _) hout
      · exact ih hp (fun hc => hout (List.mem_cons_of_mem _ hc))

theorem mem_eraseFirst_or {V : Type} [DecidableEq V] :
    ∀ {l : List V} {v x : V}, x ∈ l → x ∉ eraseFirst l v → x = v := by
  intro l
  induction l with
  | nil => intro v x hx; simp at hx
  | cons y rest ih =>
    intro v x hx hout
    simp only [eraseFirst] at hout
    by_cases he : y = v
    · rw [if_pos he] at hout
      rcases List.mem_cons.mp hx with hx | hx
      · rw [hx]
        exact he
      · exact absurd hx hout
    · rw [if_neg he] at hout
      rcases List.mem_cons.mp hx with hx | hx
      · exact absurd (hx ▸ List.mem_cons_self _ _) hout
      · exact ih hx (fun hc => hout (List.mem_cons_of_mem _ hc))

theorem children_nodup_eq {K : Type} [DecidableEq K] {l : List (NodeKey K × Nat)}
    (h : (l.map Prod.fst).Nodup) {k : NodeKey K} {c c' : Nat} (h1 : (k, c) ∈ l)
    (h2 : (k, c') ∈ l) : c = c' := by
  have e1 := mem_lookupChild_of_nodup h h1
  have e2 := mem_lookupChild_of_nodup h h2
  rw [e1] at e2
  exact Option.some.inj e2

theorem PruneSound_refl {K V : Type} (s : MultiTrie K V) : PruneSound s s := by
  constructor
  · intro m l c hin hout
    exact absurd hin hout
  · intro m c hin hout
    exact absurd hin hout

theorem PruneSound_trans {K V : Type} {a b c : MultiTrie K V} (h1 : PruneSound a b)
    (h2 : PruneSound b c) (hle : StateLE c b) : PruneSound a c := by
  constructor
  · intro m l cc hin hout
    by_cases hb : (l, cc) ∈ (getNode b m).children
    · exact h2.1 m l cc hb hout
    · exact is_empty_mono hle (h1.1 m l cc hin hb)
  · intro m cc hin hout
    by_cases hb : cc ∈ (getNode b m).skip_pars
    · exact h2.2 m cc hb hout
    · exact is_empty_mono hle (h1.2 m cc hin hb)

theorem prune_of_fields_eq {K V : Type} {a b : MultiTrie K V}
    (hc : ∀ m, (getNode b m).children = (getNode a m).children)
    (hs : ∀ m, (getNode b m).skip_pars = (getNode a m).skip_pars) : PruneSound a b := by
  constructor
  · intro m l c hin hout
    exact absurd (by rw [hc]; exact hin) hout
  · intro m c hin hout
    exact absurd (by rw [hs]; exact hin) hout

theorem prune_values_set {K V : Type} (s : MultiTrie K V) (nid : Nat) (vals : List V) :
    PruneSound s (setNode s nid { getNode s nid with values := vals }) := by
  refine prune_of_fields_eq ?_ ?_ <;> intro m <;> by_cases hin : nid < s.nodes.length
  · by_cases hm : m = nid
    · subst hm
      rw [getNode_setNode_same _ hin]
    · rw [getNode_setNode_other _ hm]
  · rw [setNode_oob (by omega)]
  · by_cases hm : m = nid
    · subst hm
      rw [getNode_setNode_same _ hin]
    · rw [getNode_setNode_other _ hm]
  · rw [setNode_oob (by omega)]

theorem removeStep_prune {K V : Type} [DecidableEq K] {s : MultiTrie K V} {nid : Nat}
    {lbl : Option (NodeKey K)} {c : Nat} {removed : Bool}
    (hlbl : ∀ l, lbl = some l → ∀ c', (l, c') ∈ (getNode s nid).children → c' = c) :
    PruneSound s (removeStep s nid lbl c removed) := by
  unfold removeStep
  by_cases hcond : (removed && (getNode s c).is_empty) = true
  · rw [if_pos hcond]
    have he : (getNode s c).is_empty = true := by
      revert hcond
      cases (getNode s c).is_empty <;> simp
    cases lbl with
    | some l =>
      show PruneSound s
        (setNode s nid { getNode s nid with children := eraseChild (getNode s nid).children l })
      have hble : StateLE
          (setNode s nid
            { getNode s nid with children := eraseChild (getNode s nid).children l }) s :=
        setNode_le ⟨eraseChild_sublist _ _, List.Sublist.refl _, List.Sublist.refl _⟩
      have hbe := is_empty_mono hble he
      constructor
      · intro m l' c' hin hout
        by_cases hnin : nid < s.nodes.length
        · by_cases hm : m = nid
          · subst hm
            rw [getNode_setNode_same _ hnin] at hout
            have hl : l' = l := mem_eraseChild_or hin hout
            subst hl
            have hc : c' = c := hlbl l' rfl c' hin
            subst hc
            exact hbe
          · rw [getNode_setNode_other _ hm] at hout
            exact absurd hin hout
        · rw [setNode_oob (by omega)] at hout
          exact absurd hin hout
      · intro m cc hin hout
        by_cases hnin : nid < s.nodes.length
        · by_cases hm : m = nid
          · subst hm
            rw [getNode_setNode_same _ hnin] at hout
            exact absurd hin hout
          · rw [getNode_setNode_other _ hm] at hout
            exact absurd hin hout
        · rw [setNode_oob (by omega)] at hout
          exact absurd hin hout
    | none =>
      show PruneSound s
        (setNode s nid
          { getNode s nid with skip_pars := eraseFirst (getNode s nid).skip_pars c })
      have hble : StateLE
          (setNode s nid
            { getNode s nid with skip_pars := eraseFirst (getNode s nid).skip_pars c }) s :=
        setNode_le ⟨List.Sublist.refl _, eraseFirst_sublist _ _, List.Sublist.refl _⟩
      have hbe := is_empty_mono hble he
      constructor
      · intro m l' c' hin hout
        by_cases hnin : nid < s.nodes.length
        · by_cases hm : m = nid
          · subst hm
            rw [getNode_setNode_same _ hnin] at hout
            exact absurd hin hout
          · rw [getNode_setNode_other _ hm] at hout
            exact absurd hin hout
        · rw [setNode_oob (by omega)] at hout
          exact absurd hin hout
      · intro m cc hin hout
        by_cases hnin : nid < s.nodes.length
        · by_cases hm : m = nid
          · subst hm
            rw [getNode_setNode_same _ hnin] at hout
            have hcc : cc = c := mem_eraseFirst_or hin hout
            subst hcc
            exact hbe
          · rw [getNode_setNode_other _ hm] at hout
            exact absurd hin hout
        · rw [setNode_oob (by omega)] at hout
          exact absurd hin hout
  · rw [if_neg hcond]
    exact PruneSound_refl s

theorem branch_label_mem {K V : Type} [DecidableEq K] {s : MultiTrie K V} {nid : Nat}
    {key : TrieKey K} {bs : List (Option (NodeKey K) × Nat × TrieKey K)}
    (h : childBranches s nid key = some bs) :
    ∀ lb c k, (some lb, c, k) ∈ bs → (lb, c) ∈ (getNode s nid).children := by
  cases key with
  | nil => cases h
  | cons head rest =>
    obtain ⟨hkey, hps⟩ := head
    intro lb c k hm
    cases hkey with
    | Exact a =>
      simp only [childBranches] at h
      injection h with h
      subst h
      simp only [List.mem_append, Option.mem_toList, Option.mem_def,
        Option.map_eq_some', Prod.mk.injEq, Option.some.injEq] at hm
      rcases hm with ⟨c', hc', hl, hc2, -⟩ | ⟨c', hc', hl, hc2, -⟩
      · rw [← hl, ← hc2]
        exact lookupChild_mem hc'
      · rw [← hl, ← hc2]
        exact lookupChild_mem hc'
    | RightPar =>
      simp only [childBranches] at h
      injection h with h
      subst h
      simp only [Option.mem_toList, Option.mem_def, Option.map_eq_some', Prod.mk.injEq,
        Option.some.injEq] at hm
      rcases hm with ⟨c', hc', hl, hc2, -⟩
      rw [← hl, ← hc2]
      exact lookupChild_mem hc'
    | LeftPar =>
      cases hps with
      | none => cases h
      | some size =>
        simp only [childBranches] at h
        injection h with h
        subst h
        simp only [List.mem_append, Option.mem_toList, Option.mem_def,
          Option.map_eq_some', Prod.mk.injEq, Option.some.injEq] at hm
        rcases hm with ⟨c', hc', hl, hc2, -⟩ | ⟨c', hc', hl, hc2, -⟩
        · rw [← hl, ← hc2]
          exact lookupChild_mem hc'
        · rw [← hl, ← hc2]
          exact lookupChild_mem hc'
    | Wildcard =>
      simp only [childBranches] at h
      injection h with h
      subst h
      simp only [List.mem_append, List.mem_map, Prod.mk.injEq, Option.some.injEq] at hm
      rcases hm with ⟨p, hp, hl, hc2, -⟩ | ⟨c', hc', hl, -⟩
      · rw [← hl, ← hc2]
        exact List.mem_filter.mp hp |>.1
      · cases hl

theorem removeBranchesWith_prune {K V : Type} [DecidableEq K]
    {f : MultiTrie K V → Nat → TrieKey K → Option (Bool × MultiTrie K V)}
    (hf_le : ∀ t c k r, f t c k = some r → StateLE r.2 t)
    (hf_pr : ∀ t c k r, WF t → f t c k = some r → PruneSound t r.2)
    {sE : MultiTrie K V} (hwfE : WF sE) (nid : Nat) :
    ∀ {l : List (Option (NodeKey K) × Nat × TrieKey K)} {s : MultiTrie K V}
      {bb : Bool} {s' : MultiTrie K V},
      StateLE s sE →
      (∀ lb c k, (some lb, c, k) ∈ l → (lb, c) ∈ (getNode sE nid).children) →
      removeBranchesWith f nid l s = some (bb, s') →
      PruneSound s s' := by
  intro l
  induction l with
  | nil =>
    intro s bb s' _ _ h
    injection h with h
    rw [Prod.mk.injEq] at h
    rw [← h.2]
    exact PruneSound_refl s
  | cons b rest ih =>
    intro s bb s' hsle hbr h
    obtain ⟨lbl, c, k⟩ := b
    simp only [removeBranchesWith] at h
    cases hf1 : f s c k with
    | none => rw [hf1] at h; cases h
    | some r1 =>
      rw [hf1] at h
      simp only [Option.bind_eq_bind, Option.some_bind] at h
      have hle1 : StateLE r1.2 s := hf_le _ _ _ _ hf1
      have hpr1 : PruneSound s r1.2 := hf_pr _ _ _ _ (WF_of_StateLE hsle hwfE) hf1
      have hpr2 : PruneSound r1.2 (removeStep r1.2 nid lbl c r1.1) := by
        apply removeStep_prune
        intro l' hl' c' hc'
        have hcmem : (l', c') ∈ (getNode sE nid).children :=
          ((StateLE_trans hle1 hsle).2 nid).1.subset hc'
        have hcmem0 : (l', c) ∈ (getNode sE nid).children := by
          apply hbr l' c k
          rw [← hl']
          exact List.mem_cons_self _ _
        exact children_nodup_eq (WF_getNode hwfE nid).2.1 hcmem hcmem0
      have hle2 : StateLE (removeStep r1.2 nid lbl c r1.1) r1.2 := removeStep_le _ _ _ _ _
      cases hf2 : removeBranchesWith f nid rest (removeStep r1.2 nid lbl c r1.1) with
      | none => rw [hf2] at h; cases h
      | some r2 =>
        rw [hf2] at h
        simp only [Option.bind_eq_bind, Option.some_bind] at h
        injection h with h
        rw [Prod.mk.injEq] at h
        have hpr3 : PruneSound (removeStep r1.2 nid lbl c r1.1) r2.2 := by
          apply ih (StateLE_trans hle2 (StateLE_trans hle1 hsle))
            (fun lb cc kk hmem => hbr lb cc kk (List.mem_cons_of_mem _ hmem))
          rw [hf2]
        have hle3 : StateLE r2.2 (removeStep r1.2 nid lbl c r1.1) :=
          removeBranchesWith_le hf_le hf2
        rw [← h.2]
        exact PruneSound_trans (PruneSound_trans hpr1 hpr2 hle2) hpr3 hle3

theorem removeB_prune {K V : Type} [DecidableEq K] [DecidableEq V] (v : V) :
    ∀ (fuel : Nat) (s : MultiTrie K V) (nid : Nat) (key : TrieKey K)
      (r : Bool × MultiTrie K V),
      WF s → removeB v fuel s nid key = some r → PruneSound s r.2 := by
  intro fuel
  induction fuel with
  | zero =>
    intro s nid key r _ h
    cases key with
    | nil =>
      rw [removeB_nil] at h
      injection h with h
      rw [← h]
      exact prune_values_set s nid _
    | cons head rest => cases h
  | succ fuel ih =>
    intro s nid key r hwf h
    cases key with
    | nil =>
      rw [removeB_nil] at h
      injection h with h
      rw [← h]
      exact prune_values_set s nid _
    | cons head rest =>
      rw [removeB_cons] at h
      cases hbs : childBranches s nid (head :: rest) with
      | none => rw [hbs] at h; cases h
      | some bs =>
        rw [hbs] at h
        obtain ⟨rb, rs⟩ := r
        exact removeBranchesWith_prune (fun t c k r2 h2 => removeB_le v fuel t c k r2 h2)
          (fun t c k r2 hw h2 => ih t c k r2 hw h2) hwf nid (StateLE_refl s)
          (branch_label_mem hbs) h

/-- C4: amended prune-soundness of `remove`.  Whenever `remove` deletes an edge —
a labelled entry of some node's `children` or an id of some node's `skip_pars` —
the node the edge pointed at is empty in the sense the code actually checks
(`MultiTrieNode::is_empty`): it has no children and no values.  Contrary to the
claim's wording, `skip_pars` is *not* consulted (see the recorded counterexample,
where a child is unlinked while still carrying a skip-par entry), and the deletion
additionally requires the recursive removal of the branch to have returned true,
so emptiness alone does not force a deletion. -/
theorem claim_C4_prune_soundness {K V : Type} [DecidableEq K] [DecidableEq V]
    (s : MultiTrie K V) (key : TrieKey K) (v : V) (hwf : WF s) {b : Bool}
    {s' : MultiTrie K V} (h : remove s key v = some (b, s')) : PruneSound s s' :=
  removeB_prune v key.length s 0 key (b, s') hwf h

/-- Witness for C4 at a concrete input: removing a value with a wildcard key from
the empty trie succeeds and the state change is prune-sound. -/
theorem claim_C4_witness :
    WF (MultiTrie.new : MultiTrie Nat Nat) ∧
      PruneSound (MultiTrie.new : MultiTrie Nat Nat) MultiTrie.new :=
  ⟨by decide, claim_C4_prune_soundness MultiTrie.new keyWild 0 (by decide) (by rfl)⟩

end Multitrie

namespace Multitrie

/-! ### Soundness of the result of `remove` -/

theorem removeBranchesWith_true_ex {K V : Type} [DecidableEq K]
    {f : MultiTrie K V → Nat → TrieKey K → Option (Bool × MultiTrie K V)}
    (hf_false : ∀ t c k t2, f t c k = some (false, t2) → t2 = t) {nid : Nat} :
    ∀ {l : List (Option (NodeKey K) × Nat × TrieKey K)} {s s' : MultiTrie K V},
      removeBranchesWith f nid l s = some (true, s') →
      ∃ b ∈ l, ∃ t', f s b.2.1 b.2.2 = some (true, t') := by
  intro l
  induction l with
  | nil =>
    intro s s' h
    injection h with h
    rw [Prod.mk.injEq] at h
    cases h.1
  | cons b0 rest ih =>
    intro s s' h
    obtain ⟨lbl, c, k⟩ := b0
    simp only [removeBranchesWith] at h
    cases hf1 : f s c k with
    | none => rw [hf1] at h; cases h
    | some r1 =>
      rw [hf1] at h
      simp only [Option.bind_eq_bind, Option.some_bind] at h
      obtain ⟨r1b, r1s⟩ := r1
      cases r1b with
      | true => exact ⟨(lbl, c, k), List.mem_cons_self _ _, r1s, hf1⟩
      | false =>
        have hid : r1s = s := hf_false s c k r1s hf1
        rw [removeStep_false, hid] at h
        cases hf2 : removeBranchesWith f nid rest s with
        | none => rw [hf2] at h; cases h
        | some r2 =>
          obtain ⟨r2b, r2s⟩ := r2
          rw [hf2] at h
          simp only [Option.bind_eq_bind, Option.some_bind] at h
          injection h with h
          rw [Prod.mk.injEq] at h
          have hr2 : r2b = true := by simpa using h.1
          subst hr2
          obtain ⟨b2, hb2, t', ht'⟩ := ih hf2
          exact ⟨b2, List.mem_cons_of_mem _ hb2, t', ht'⟩

theorem removeBranchesWith_mem_true {K V : Type} [DecidableEq K]
    {f : MultiTrie K V → Nat → TrieKey K → Option (Bool × MultiTrie K V)}
    (hf_false : ∀ t c k t2, f t c k = some (false, t2) → t2 = t) {nid : Nat} :
    ∀ {l : List (Option (NodeKey K) × Nat × TrieKey K)} {s : MultiTrie K V} {bb : Bool}
      {s' : MultiTrie K V},
      removeBranchesWith f nid l s = some (bb, s') →
      ∀ b ∈ l, (∀ r1, f s b.2.1 b.2.2 = some r1 → r1.1 = true) → bb = true := by
  intro l
  induction l with
  | nil =>
    intro s bb s' _ b hb
    simp at hb
  | cons b0 rest ih =>
    intro s bb s' h b hb hprop
    obtain ⟨lbl, c, k⟩ := b0
    simp only [removeBranchesWith] at h
    cases hf1 : f s c k with
    | none => rw [hf1] at h; cases h
    | some r1 =>
      rw [hf1] at h
      simp only [Option.bind_eq_bind, Option.some_bind] at h
      obtain ⟨r1b, r1s⟩ := r1
      cases r1b with
      | true =>
        cases hf2 : removeBranchesWith f nid rest (removeStep r1s nid lbl c true) with
        | none => rw [hf2] at h; cases h
        | some r2 =>
          rw [hf2] at h
          simp only [Option.bind_eq_bind, Option.some_bind] at h
          injection h with h
          rw [Prod.mk.injEq] at h
          rw [← h.1]
          simp
      | false =>
        have hid : r1s = s := hf_false s c k r1s hf1
        rw [removeStep_false, hid] at h
        cases hf2 : removeBranchesWith f nid rest s with
        | none => rw [hf2] at h; cases h
        | some r2 =>
          obtain ⟨r2b, r2s⟩ := r2
          rw [hf2] at h
          simp only [Option.bind_eq_bind, Option.some_bind] at h
          injection h with h
          rw [Prod.mk.injEq] at h
          rcases List.mem_cons.mp hb with hb0 | hbr
          · subst hb0
            have hcontra := hprop (false, r1s) hf1
            simp at hcontra
          · have hr2b : r2b = true := ih hf2 b hbr hprop
            subst hr2b
            rw [← h.1]
            simp

theorem removeBranchesWith_visits {K V : Type} [DecidableEq K]
    {f : MultiTrie K V → Nat → TrieKey K → Option (Bool × MultiTrie K V)}
    (hf_le : ∀ t c k r, f t c k = some r → StateLE r.2 t) {nid : Nat} :
    ∀ {l : List (Option (NodeKey K) × Nat × TrieKey K)} {s : MultiTrie K V} {bb : Bool}
      {s' : MultiTrie K V},
      removeBranchesWith f nid l s = some (bb, s') →
      ∀ b ∈ l, ∃ t r1, StateLE t s ∧ f t b.2.1 b.2.2 = some r1 ∧ StateLE s' r1.2 := by
  intro l
  induction l with
  | nil =>
    intro s bb s' _ b hb
    simp at hb
  | cons b0 rest ih =>
    intro s bb s' h b hb
    obtain ⟨lbl, c, k⟩ := b0
    simp only [removeBranchesWith] at h
    cases hf1 : f s c k with
    | none => rw [hf1] at h; cases h
    | some r1 =>
      rw [hf1] at h
      simp only [Option.bind_eq_bind, Option.some_bind] at h
      cases hf2 : removeBranchesWith f nid rest (removeStep r1.2 nid lbl c r1.1) with
      | none => rw [hf2] at h; cases h
      | some r2 =>
        rw [hf2] at h
        simp only [Option.bind_eq_bind, Option.some_bind] at h
        injection h with h
        rw [Prod.mk.injEq] at h
        have hs'r2 : s' = r2.2 := h.2.symm
        rcases List.mem_cons.mp hb with hb0 | hbr
        · subst hb0
          refine ⟨s, r1, StateLE_refl s, hf1, ?_⟩
          rw [hs'r2]
          exact StateLE_trans (removeBranchesWith_le hf_le hf2) (removeStep_le _ _ _ _ _)
        · obtain ⟨t, r1', htle, hft, hs'le⟩ := ih hf2 b hbr
          refine ⟨t, r1', ?_, hft, by rw [hs'r2]; exact hs'le⟩
          exact StateLE_trans htle
            (StateLE_trans (removeStep_le _ _ _ _ _) (hf_le _ _ _ _ hf1))

theorem removeB_true_mem {K V : Type} [DecidableEq K] [DecidableEq V] (v : V) :
    ∀ (fuel : Nat) (s : MultiTrie K V) (nid : Nat) (key : TrieKey K) (s' : MultiTrie K V),
      KeyTotal key → key.length ≤ fuel → removeB v fuel s nid key = some (true, s') →
      ∃ L x, exploreB s fuel nid key = some L ∧ x ∈ L ∧ v ∈ (getNode s x).values := by
  intro fuel
  induction fuel with
  | zero =>
    intro s nid key s' _ _ h
    cases key with
    | nil =>
      rw [removeB_nil] at h
      injection h with h
      rw [Prod.mk.injEq] at h
      have hv : v ∈ (getNode s nid).values := by
        have h1 := h.1
        rw [decide_eq_true_eq] at h1
        exact h1
      exact ⟨[nid], nid, exploreB_nil s 0 nid, List.mem_singleton.mpr rfl, hv⟩
    | cons head rest => cases h
  | succ fuel ih =>
    intro s nid key s' hk hfuel h
    cases key with
    | nil =>
      rw [removeB_nil] at h
      injection h with h
      rw [Prod.mk.injEq] at h
      have hv : v ∈ (getNode s nid).values := by
        have h1 := h.1
        rw [decide_eq_true_eq] at h1
        exact h1
      exact ⟨[nid], nid, exploreB_nil s _ nid, List.mem_singleton.mpr rfl, hv⟩
    | cons head rest =>
      rw [removeB_cons] at h
      cases hbs : childBranches s nid (head :: rest) with
      | none => rw [hbs] at h; cases h
      | some bs =>
        rw [hbs] at h
        obtain ⟨b, hb, t', ht'⟩ :=
          removeBranchesWith_true_ex (fun t c k t2 hf => removeB_false_eq v fuel t c k t2 hf) h
        have hktb : KeyTotal b.2.2 := branch_KeyTotal hbs hk b hb
        have hlenb : b.2.2.length ≤ fuel := by
          simp only [List.length_cons] at hfuel
          exact le_trans (branch_key_len hbs b hb) (by omega)
        obtain ⟨L1, x, hL1, hx, hv⟩ := ih s b.2.1 b.2.2 t' hktb hlenb ht'
        obtain ⟨L, hL⟩ := exploreB_some_of_KeyTotal s (fuel + 1) nid (head :: rest) hk hfuel
        refine ⟨L, x, hL, ?_, hv⟩
        rw [exploreB_cons, branch_mem_frames hbs] at hL
        exact ((exploreFramesWith_eq_some hL).2 x).mpr
          ⟨b.2, List.mem_map_of_mem _ hb, L1, hL1, hx⟩

theorem removeB_found_true {K V : Type} [DecidableEq K] [DecidableEq V] (v : V) :
    ∀ (fuel : Nat) (s : MultiTrie K V) (nid : Nat) (key : TrieKey K)
      (r : Bool × MultiTrie K V) (L : List Nat) (x : Nat),
      removeB v fuel s nid key = some r → exploreB s fuel nid key = some L →
      x ∈ L → v ∈ (getNode s x).values → r.1 = true := by
  intro fuel
  induction fuel with
  | zero =>
    intro s nid key r L x h hL hx hv
    cases key with
    | nil =>
      rw [removeB_nil] at h
      rw [exploreB_nil] at hL
      injection h with h
      injection hL with hL
      subst hL
      have hxn : x = nid := List.mem_singleton.mp hx
      subst hxn
      rw [← h]
      simp [decide_eq_true hv]
    | cons head rest => cases h
  | succ fuel ih =>
    intro s nid key r L x h hL hx hv
    cases key with
    | nil =>
      rw [removeB_nil] at h
      rw [exploreB_nil] at hL
      injection h with h
      injection hL with hL
      subst hL
      have hxn : x = nid := List.mem_singleton.mp hx
      subst hxn
      rw [← h]
      simp [decide_eq_true hv]
    | cons head rest =>
      rw [removeB_cons] at h
      rw [exploreB_cons] at hL
      cases hbs : childBranches s nid (head :: rest) with
      | none => rw [hbs] at h; cases h
      | some bs =>
        rw [hbs] at h
        rw [branch_mem_frames hbs] at hL
        obtain ⟨fr, hfr, lf, hlf, hx2⟩ := ((exploreFramesWith_eq_some hL).2 x).mp hx
        obtain ⟨b, hb, hfr_eq⟩ := List.mem_map.mp hfr
        obtain ⟨rb, rs⟩ := r
        refine removeBranchesWith_mem_true
          (fun t c k t2 hf => removeB_false_eq v fuel t c k t2 hf) h b hb ?_
        intro r1 h1
        refine ih s b.2.1 b.2.2 r1 lf x h1 ?_ hx2 hv
        rw [hfr_eq]
        exact hlf

theorem removeB_removed {K V : Type} [DecidableEq K] [DecidableEq V] (v : V) :
    ∀ (fuel : Nat) (s : MultiTrie K V) (nid : Nat) (key : TrieKey K) (b : Bool)
      (s' : MultiTrie K V) (L' : List Nat),
      WF s → KeyTotal key → key.length ≤ fuel → removeB v fuel s nid key = some (b, s') →
      exploreB s' fuel nid key = some L' → ∀ x ∈ L', v ∉ (getNode s' x).values := by
  intro fuel
  induction fuel with
  | zero =>
    intro s nid key b s' L' hwf _ _ h hL x hx
    cases key with
    | nil =>
      rw [removeB_nil] at h
      injection h with h
      rw [Prod.mk.injEq] at h
      rw [exploreB_nil] at hL
      injection hL with hL
      subst hL
      have hxn : x = nid := List.mem_singleton.mp hx
      subst hxn
      rw [← h.2]
      by_cases hnin : x < s.nodes.length
      · rw [getNode_setNode_same _ hnin]
        have hnd : (getNode s x).values.Nodup := (WF_getNode hwf x).2.2.2.2
        intro hmem
        exact absurd rfl ((mem_eraseFirst_iff hnd).mp hmem).2
      · rw [setNode_oob (by omega)]
        have he : getNode s x = emptyNode := by
          simp [getNode_eq, List.getElem?_eq_none (show s.nodes.length ≤ x by omega)]
        rw [he]
        simp [emptyNode]
    | cons head rest => cases h
  | succ fuel ih =>
    intro s nid key b s' L' hwf hk hfuel h hL x hx
    cases key with
    | nil =>
      rw [removeB_nil] at h
      injection h with h
      rw [Prod.mk.injEq] at h
      rw [exploreB_nil] at hL
      injection hL with hL
      subst hL
      have hxn : x = nid := List.mem_singleton.mp hx
      subst hxn
      rw [← h.2]
      by_cases hnin : x < s.nodes.length
      · rw [getNode_setNode_same _ hnin]
        have hnd : (getNode s x).values.Nodup := (WF_getNode hwf x).2.2.2.2
        intro hmem
        exact absurd rfl ((mem_eraseFirst_iff hnd).mp hmem).2
      · rw [setNode_oob (by omega)]
        have he : getNode s x = emptyNode := by
          simp [getNode_eq, List.getElem?_eq_none (show s.nodes.length ≤ x by omega)]
        rw [he]
        simp [emptyNode]
    | cons head rest =>
      rw [removeB_cons] at h
      cases hbs : childBranches s nid (head :: rest) with
      | none => rw [hbs] at h; cases h
      | some bs =>
        rw [hbs] at h
        have hle : StateLE s' s :=
          removeBranchesWith_le (fun t c k r2 h2 => removeB_le v fuel t c k r2 h2) h
        rw [exploreB_cons] at hL
        cases hst' : get_exploring_strategy s' nid (head :: rest) with
        | none => rw [hst'] at hL; cases hL
        | some frames' =>
          rw [hst'] at hL
          obtain ⟨fr, hfr, lf, hlf, hx2⟩ := ((exploreFramesWith_eq_some hL).2 x).mp hx
          have hfrs : fr ∈ bs.map (fun b => b.2) :=
            strategy_mono hwf hle hst' (branch_mem_frames hbs) fr hfr
          obtain ⟨bbr, hbbr, hfr_eq⟩ := List.mem_map.mp hfrs
          obtain ⟨t, r1, hts, hft, hs'r1⟩ := removeBranchesWith_visits
            (fun t c k r2 h2 => removeB_le v fuel t c k r2 h2) h bbr hbbr
          have hwt : WF t := WF_of_StateLE hts hwf
          have hwr1 : WF r1.2 :=
            WF_of_StateLE (removeB_le v fuel t bbr.2.1 bbr.2.2 r1 hft) hwt
          have hktb : KeyTotal bbr.2.2 := branch_KeyTotal hbs hk bbr hbbr
          have hlenb : bbr.2.2.length ≤ fuel := by
            simp only [List.length_cons] at hfuel
            exact le_trans (branch_key_len hbs bbr hbbr) (by omega)
          obtain ⟨Li, hLi⟩ := exploreB_some_of_KeyTotal r1.2 fuel bbr.2.1 bbr.2.2 hktb hlenb
          have hnot : ∀ y ∈ Li, v ∉ (getNode r1.2 y).values :=
            ih t bbr.2.1 bbr.2.2 r1.1 r1.2 Li hwt hktb hlenb hft hLi
          rw [hfr_eq] at hLi
          have hxL : x ∈ Li := explore_mono hwr1 hs'r1 fuel fr.1 fr.2 lf Li hlf hLi x hx2
          intro hvx
          exact hnot x hxL ((hs'r1.2 x).2.2.subset hvx)

end Multitrie

namespace Multitrie

/-- C5: amended soundness of `remove`.  For a key built by `from_list` and a
well-formed state, `remove(k, v)` succeeds and returns true **iff `v` is among the
values yielded by `get(k)` immediately before the call**; afterwards `v` is not
yielded by `get(k)` at all.  The claim's "one occurrence fewer is reachable" is
wrong in two ways: values form per-node sets (an occurrence count above one arises
only across distinct nodes), and the traversal removes `v` from *every* node
reachable via `k` — both wildcard and exact occurrences at once — so the count
drops to zero, not by one (see the recorded counterexample, where the count goes
from 2 to 0). -/
theorem claim_C5_remove_sound {K V : Type} [DecidableEq K] [DecidableEq V]
    {ts : List (NodeKey K)} {k : TrieKey K} (hk : precalculate_par_sizes ts = Except.ok k)
    (s : MultiTrie K V) (v : V) (hwf : WF s) :
    ∃ b s' l l', remove s k v = some (b, s') ∧ getValues s 0 k = some l ∧
      getValues s' 0 k = some l' ∧ (b = true ↔ v ∈ l) ∧ v ∉ l' := by
  have hkt : KeyTotal k := (precalc_ok_props hk).2.1
  obtain ⟨⟨b, s'⟩, hrem⟩ := removeB_some_of_KeyTotal v k.length s 0 k hkt (le_refl _)
  obtain ⟨L, hL⟩ := exploreB_some_of_KeyTotal s k.length 0 k hkt (le_refl _)
  obtain ⟨L', hL'⟩ := exploreB_some_of_KeyTotal s' k.length 0 k hkt (le_refl _)
  refine ⟨b, s', L.flatMap (fun n => (getNode s n).values),
    L'.flatMap (fun n => (getNode s' n).values), hrem, ?_, ?_, ?_, ?_⟩
  · unfold getValues exploreNodes
    rw [hL]
    rfl
  · unfold getValues exploreNodes
    rw [hL']
    rfl
  · constructor
    · intro hb
      subst hb
      obtain ⟨L1, x, hL1, hx, hv⟩ :=
        removeB_true_mem v k.length s 0 k s' hkt (le_refl _) hrem
      rw [hL] at hL1
      injection hL1 with hL1
      subst hL1
      exact List.mem_flatMap.mpr ⟨x, hx, hv⟩
    · intro hv
      obtain ⟨x, hx, hvx⟩ := List.mem_flatMap.mp hv
      exact removeB_found_true v k.length s 0 k (b, s') L x hrem hL hx hvx
  · intro hv
    obtain ⟨x, hx, hvx⟩ := List.mem_flatMap.mp hv
    exact removeB_removed v k.length s 0 k b s' L' hwf hkt (le_refl _) hrem hL' x hx hvx

/-- Witness for C5 at a concrete input: the singleton key `Exact 0` on the empty
trie, removing the absent value 5. -/
theorem claim_C5_witness :
    precalculate_par_sizes [NodeKey.Exact 0] = Except.ok keyExact0 ∧
    WF (MultiTrie.new : MultiTrie Nat Nat) ∧
    (∃ b s' l l', remove (MultiTrie.new : MultiTrie Nat Nat) keyExact0 5 = some (b, s') ∧
      getValues MultiTrie.new 0 keyExact0 = some l ∧ getValues s' 0 keyExact0 = some l' ∧
      (b = true ↔ 5 ∈ l) ∧ 5 ∉ l') :=
  ⟨rfl, by decide,
    @claim_C5_remove_sound Nat Nat _ _ [NodeKey.Exact 0] keyExact0 rfl MultiTrie.new 5
      (by decide)⟩

end Multitrie

namespace Multitrie

/-- C7: amended wildcard subsumption.  If `v` was inserted under the single-token
key `Wildcard`, then `v` is yielded by `get(k)` when `k` (as built by `from_list`)
is a single non-paren token, or is exactly one balanced parenthesised group — the
`LeftPar` head's span covers the whole remainder of the key.  The claim's
"begins with" is wrong: a root wildcard matches only when the whole query is the
one token or the one group, since the wildcard child has no further children to
match the leftover suffix (see the recorded counterexample, where the query
`Exact 0 :: Exact 1` yields nothing after `add([Wildcard], v)`). -/
theorem claim_C7_wildcard_subsumes {K V : Type} [DecidableEq K] [DecidableEq V]
    {s : MultiTrie K V} (hwf : WF s) {v : V} {s' : MultiTrie K V}
    (hadd : add s [{ key := NodeKey.Wildcard, par_size := none }] v = some s')
    {ts : List (NodeKey K)} {k : TrieKey K} (hk : precalculate_par_sizes ts = Except.ok k)
    (hshape : (∃ e, k = [e] ∧ e.key ≠ NodeKey.LeftPar ∧ e.key ≠ NodeKey.RightPar) ∨
      (∃ e rest, k = e :: rest ∧ e.key = NodeKey.LeftPar ∧ e.par_size = some rest.length)) :
    ∃ l, getValues s' 0 k = some l ∧ v ∈ l := by
  obtain ⟨hwf', ids, hchain, hval⟩ := add_chain hwf v hadd
  obtain ⟨c, ids2, hids, hlook, hchain2⟩ := hchain
  have hids2 : ids2 = [] := hchain2
  subst hids
  subst hids2
  rw [lastId_cons, lastId_nil] at hval
  have hkt : KeyTotal k := (precalc_ok_props hk).2.1
  rcases hshape with ⟨e, hke, hnl, hnr⟩ | ⟨e, rest, hke, hel, hes⟩
  · subst hke
    obtain ⟨L, hL⟩ := exploreB_some_of_KeyTotal s' 1 0 [e] hkt (le_refl _)
    refine ⟨L.flatMap (fun n => (getNode s' n).values), ?_, ?_⟩
    · have hlen : ([e] : TrieKey K).length = 1 := rfl
      simp [getValues, exploreNodes, hlen, hL]
    · apply List.mem_flatMap.mpr
      refine ⟨c, ?_, hval⟩
      have h1 : (1 : Nat) = 0 + 1 := rfl
      rw [h1, exploreB_cons] at hL
      cases hst : get_exploring_strategy s' 0 [e] with
      | none => rw [hst] at hL; cases hL
      | some frames =>
        rw [hst] at hL
        have hmemfr : (c, ([] : TrieKey K)) ∈ frames := by
          obtain ⟨ekey, eps⟩ := e
          cases ekey with
          | Exact a =>
            simp only [get_exploring_strategy] at hst
            injection hst with hst
            rw [← hst]
            simp [hlook]
          | Wildcard =>
            simp only [get_exploring_strategy] at hst
            injection hst with hst
            rw [← hst]
            apply List.mem_append_left
            apply List.mem_map.mpr
            refine ⟨(NodeKey.Wildcard, c), ?_, rfl⟩
            apply List.mem_filter.mpr
            refine ⟨lookupChild_mem hlook, ?_⟩
            simp [NodeKey.is_parenthesis]
          | LeftPar => exact absurd rfl hnl
          | RightPar => exact absurd rfl hnr
        exact ((exploreFramesWith_eq_some hL).2 c).mpr
          ⟨(c, []), hmemfr, [c], exploreB_nil s' 0 c, List.mem_singleton.mpr rfl⟩
  · subst hke
    obtain ⟨ekey, eps⟩ := e
    simp only at hel hes
    subst hel
    subst hes
    obtain ⟨L, hL⟩ :=
      exploreB_some_of_KeyTotal s' (rest.length + 1) 0
        ({ key := NodeKey.LeftPar, par_size := some rest.length } :: rest) hkt (by simp)
    refine ⟨L.flatMap (fun n => (getNode s' n).values), ?_, ?_⟩
    · have hlen : (({ key := NodeKey.LeftPar, par_size := some rest.length } : AnnKey K)
          :: rest).length = rest.length + 1 := by simp
      simp [getValues, exploreNodes, hlen, hL]
    · apply List.mem_flatMap.mpr
      refine ⟨c, ?_, hval⟩
      rw [exploreB_cons] at hL
      cases hst : get_exploring_strategy s' 0
          ({ key := NodeKey.LeftPar, par_size := some rest.length } :: rest) with
      | none => rw [hst] at hL; cases hL
      | some frames =>
        rw [hst] at hL
        have hmemfr : (c, rest.drop rest.length) ∈ frames := by
          simp only [get_exploring_strategy] at hst
          injection hst with hst
          rw [← hst]
          simp [hlook]
        have hdrop : rest.drop rest.length = ([] : TrieKey K) := List.drop_length rest
        refine ((exploreFramesWith_eq_some hL).2 c).mpr
          ⟨(c, rest.drop rest.length), hmemfr, [c], ?_, List.mem_singleton.mpr rfl⟩
        rw [hdrop]
        exact exploreB_nil s' rest.length c

/-- Witness for C7 at a concrete input: after adding value 7 under the wildcard
key to the empty trie, a `get` with the single-token key `Exact 0` yields 7. -/
theorem claim_C7_witness :
    WF (MultiTrie.new : MultiTrie Nat Nat) ∧
    ∃ l, getValues ({ nodes :=
        [{ children := [(NodeKey.Wildcard, 1)], skip_pars := [], values := [] },
         { children := [], skip_pars := [], values := [7] }] } : MultiTrie Nat Nat)
      0 keyExact0 = some l ∧ 7 ∈ l :=
  ⟨by decide,
    @claim_C7_wildcard_subsumes Nat Nat _ _ MultiTrie.new (by decide) 7
      ({ nodes :=
        [{ children := [(NodeKey.Wildcard, 1)], skip_pars := [], values := [] },
         { children := [], skip_pars := [], values := [7] }] } : MultiTrie Nat Nat)
      (by rfl) [NodeKey.Exact 0] keyExact0 rfl
      (Or.inl ⟨{ key := NodeKey.Exact 0, par_size := none }, rfl, by decide, by decide⟩)⟩

end Multitrie
